import Mathlib

/-!
Shallow embedding of the `restbl` crate (RESTBL resource size table library).

Byte buffers are modelled as `List Nat` (each element a byte value `< 256`);
Rust `&str` values are modelled as the list of their UTF-8 bytes; `u32`
arithmetic is modelled on `Nat` (the source's u32 operations here never
overflow: xor/shr of values `< 2^32` stay `< 2^32`, and serialization
truncates via byte extraction exactly as a `u32` cast does).
`BTreeMap` is modelled as a strictly sorted association list with the
same insert/lookup/iteration behaviour.
-/

namespace Restbl

/-- Decidable equality for `Except`, so that concrete evaluations of the
fallible embedded operations can be settled by `decide`. -/
instance {ε α : Type} [DecidableEq ε] [DecidableEq α] : DecidableEq (Except ε α) :=
  fun a b =>
    match a, b with
    | .ok x, .ok y =>
      if h : x = y then .isTrue (by rw [h]) else .isFalse (by simp [h])
    | .error e, .error f =>
      if h : e = f then .isTrue (by rw [h]) else .isFalse (by simp [h])
    | .ok _, .error _ => .isFalse (by simp)
    | .error _, .ok _ => .isFalse (by simp)

/-! ## Byte-level utilities -/

/-- Byte at index `i` of a buffer (reads as `0` past the end; every use is
guarded by the same bounds checks the source performs). -/
def byteAt (data : List Nat) (i : Nat) : Nat :=
  data.getD i 0

/-- Little-endian `u32` at byte offset `off`, as read by `read_u32`
(`src/util.rs`) after its bounds check. -/
def u32At (data : List Nat) (off : Nat) : Nat :=
  byteAt data off + 256 * byteAt data (off + 1) + 65536 * byteAt data (off + 2) +
    16777216 * byteAt data (off + 3)

/-- Little-endian encoding of a `u32` value into four bytes, as produced by
the `repr(C)` transmutes in `src/bin.rs` on the little-endian target. -/
def le32 (n : Nat) : List Nat :=
  [n % 256, n / 256 % 256, n / 65536 % 256, n / 16777216 % 256]

/-- Subslice `data[start..start+len]` as used by the reader. -/
def slice (data : List Nat) (start len : Nat) : List Nat :=
  (data.drop start).take len

/-! ## UTF-8 validation, modelling `core::str::from_utf8` -/

/-- Continuation byte test: `0x80 ≤ b ≤ 0xBF`. -/
def isCont (b : Nat) : Bool :=
  128 ≤ b && b ≤ 191

/-- Validity of a byte sequence as UTF-8, following the standard DFA that
`core::str::from_utf8` implements (rejecting overlong forms, surrogates and
values above U+10FFFF). -/
def validUtf8 : List Nat → Bool
  | [] => true
  | b :: rest =>
    if b ≤ 127 then validUtf8 rest
    else if 194 ≤ b && b ≤ 223 then
      match rest with
      | b1 :: rest2 => isCont b1 && validUtf8 rest2
      | [] => false
    else if b == 224 then
      match rest with
      | b1 :: b2 :: rest2 => (160 ≤ b1 && b1 ≤ 191) && isCont b2 && validUtf8 rest2
      | _ => false
    else if (225 ≤ b && b ≤ 236) || b == 238 || b == 239 then
      match rest with
      | b1 :: b2 :: rest2 => isCont b1 && isCont b2 && validUtf8 rest2
      | _ => false
    else if b == 237 then
      match rest with
      | b1 :: b2 :: rest2 => (128 ≤ b1 && b1 ≤ 159) && isCont b2 && validUtf8 rest2
      | _ => false
    else if b == 240 then
      match rest with
      | b1 :: b2 :: b3 :: rest2 =>
        (144 ≤ b1 && b1 ≤ 191) && isCont b2 && isCont b3 && validUtf8 rest2
      | _ => false
    else if 241 ≤ b && b ≤ 243 then
      match rest with
      | b1 :: b2 :: b3 :: rest2 => isCont b1 && isCont b2 && isCont b3 && validUtf8 rest2
      | _ => false
    else if b == 244 then
      match rest with
      | b1 :: b2 :: b3 :: rest2 =>
        (128 ≤ b1 && b1 ≤ 143) && isCont b2 && isCont b3 && validUtf8 rest2
      | _ => false
    else false

/-! ## Errors (`src/lib.rs`, `enum Error`), plus a marker for Rust panics -/

/-- Typed errors of the crate (`Error` in `src/lib.rs`), restricted to the
variants the embedded code can produce. -/
inductive Err
  | insufficientData (found : Nat) (expected : String)
  | invalidMagic (bytes : List Nat)
  | invalidTableSize (actual expected : Nat)
  | utf8Error
  | yamlError (line : List Nat)
  | yamlInvalidNumber
  deriving DecidableEq, Repr

/-- Outcome of a fallible Rust operation: a typed error, or a panic (an
out-of-bounds slice index aborts instead of returning `Result`). -/
inductive Failure
  | err (e : Err)
  | panic
  deriving DecidableEq, Repr

/-! ## `Name` (`src/util.rs`) -/

/-- A 160-byte fixed name buffer (`Name` in `src/util.rs`). -/
structure Name where
  inner : List Nat
  deriving DecidableEq, Repr

/-- Logical string of a `Name`: the bytes before the first zero
(`Name::as_str`; the source's unchecked search for the terminator). -/
def Name.asStr (n : Name) : List Nat :=
  n.inner.takeWhile (fun b => b != 0)

/-- Lexicographic byte ordering, matching Rust `str` ordering. -/
def lexOrd : List Nat → List Nat → Ordering
  | [], [] => .eq
  | [], _ :: _ => .lt
  | _ :: _, [] => .gt
  | a :: xs, b :: ys =>
    match compare a b with
    | .eq => lexOrd xs ys
    | o => o

/-- Comparison used by `BTreeMap<Name, u32>`: `Ord for Name` compares
`as_str()` values (`src/util.rs`). -/
def Name.cmp (a b : Name) : Ordering :=
  lexOrd a.asStr b.asStr

/-- Conversion `Name::try_from(&[u8])` (`src/util.rs`): copy input bytes into
a zeroed 160-byte buffer until a zero byte or exhaustion of either side, then
validate the copied prefix as UTF-8. -/
def Name.tryFrom (value : List Nat) : Except Err Name :=
  let copied := (value.takeWhile (fun b => b != 0)).take 160
  let inner := copied ++ List.replicate (160 - copied.length) 0
  if validUtf8 copied then .ok ⟨inner⟩ else .error .utf8Error

/-- Modelled from the spec: the crate calls a `Name::from(&str)` conversion
(`Name::from(name.as_ref())` in `src/lib.rs`, `key.into()` in `src/text.rs`)
whose `impl From<&str> for Name` is not among the sources under `src/`.
Per spec §4.1 a `Name` holds the string's bytes left-aligned in a 160-byte
zero-padded buffer, so the conversion copies the string's bytes (up to the
capacity, stopping at a zero byte) into a zeroed buffer; no UTF-8 check is
needed because the input is already a `str`. -/
def Name.fromStr (s : List Nat) : Name :=
  let copied := (s.takeWhile (fun b => b != 0)).take 160
  ⟨copied ++ List.replicate (160 - copied.length) 0⟩

/-! ## CRC-32 hash (`hash_name`, `src/util.rs`) -/

/-- Inner bit loop of `hash_name`: `j` remaining iterations of the
shift/xor step. -/
def hashRound (crc : Nat) : Nat → Nat
  | 0 => crc
  | j + 1 =>
    hashRound (if crc % 2 == 1 then (crc / 2) ^^^ 0xEDB88320 else crc / 2) j

/-- Outer byte loop of `hash_name`. -/
def hashLoop (crc : Nat) : List Nat → Nat
  | [] => crc
  | b :: rest => hashLoop (hashRound (crc ^^^ b) 8) rest

/-- CRC hash function (`hash_name`, `src/util.rs`): register starts at
`0xFFFFFFFF`, each byte is xored in and followed by 8 shift/xor rounds, and
the final register is complemented (`!crc` on `u32` is xor with all ones). -/
def hash_name (s : List Nat) : Nat :=
  hashLoop 0xFFFFFFFF s ^^^ 0xFFFFFFFF

/-- Single shift/xor step of the spec's CRC-32 description: if the low bit is
set, shift right and xor the polynomial `0xEDB88320`, else just shift. -/
def crcSpecStep (crc : Nat) : Nat :=
  if crc % 2 = 1 then (crc / 2) ^^^ 0xEDB88320 else crc / 2

/-- Standard reflected CRC-32 as the spec words it (§4.2): initial register
`0xFFFFFFFF`, per byte xor the byte in and apply 8 shift/xor steps, finally
complement the register. Written independently of `hash_name`, as a fold. -/
def crc32Spec (s : List Nat) : Nat :=
  (s.foldl (fun crc b => crcSpecStep^[8] (crc ^^^ b)) 0xFFFFFFFF) ^^^ 0xFFFFFFFF

/-! ## Binary layout (`src/bin.rs`) -/

/-- Magic bytes `b"RESTBL"`. -/
def MAGIC : List Nat := [82, 69, 83, 84, 66, 76]

/-- RESTBL header fields (`Header`, `src/bin.rs`), without the magic. -/
structure Header where
  version : Nat
  stringBlockSize : Nat
  crcTableCount : Nat
  nameTableCount : Nat
  deriving DecidableEq, Repr

/-- Full header size: 6 magic bytes plus four u32 fields (`0x16`). -/
def headerFullSize : Nat := 22

/-- Header parsing (`Header::read`, `src/bin.rs`): insufficient-data check,
magic check, then four little-endian u32 fields at offsets 6, 10, 14, 18
(the inner `read_u32` bounds checks always pass once `data.length ≥ 22`). -/
def Header.read (data : List Nat) : Except Err Header :=
  if data.length < headerFullSize then
    .error (.insufficientData data.length "0x16 bytes for header")
  else if data.take 6 ≠ MAGIC then
    .error (.invalidMagic (data.take 6))
  else
    .ok ⟨u32At data 6, u32At data 10, u32At data 14, u32At data 18⟩

/-- Byte encoding of a header (`Header::write`, `src/bin.rs`): magic then the
four fields, little-endian (the `repr(C)` transmute on the LE target). -/
def Header.write (h : Header) : List Nat :=
  MAGIC ++ le32 h.version ++ le32 h.stringBlockSize ++
    le32 h.crcTableCount ++ le32 h.nameTableCount

/-- RESTBL name entry (`NameEntry`, `src/bin.rs`): a `Name` and a value. -/
structure NameEntry where
  name : Name
  value : Nat
  deriving DecidableEq, Repr

/-- Name entry parsing (`NameEntry::read`, `src/bin.rs`): length check, then
`Name::try_from` on the first 160 bytes and a u32 at offset 160. -/
def NameEntry.read (buffer : List Nat) : Except Err NameEntry :=
  if buffer.length < 164 then
    .error (.insufficientData buffer.length "0x4a bytes for NameEntry")
  else
    match Name.tryFrom (buffer.take 160) with
    | .error e => .error e
    | .ok nm => .ok ⟨nm, u32At buffer 160⟩

/-- Zero-copy reader (`ResTblReader`, `src/bin.rs`): the buffer plus its
parsed header; constructed only through `ResTblReader.new`. -/
structure Reader where
  data : List Nat
  header : Header
  deriving DecidableEq, Repr

/-- Construction of the reader (`ResTblReader::new`, `src/bin.rs`). The
source first slices `&data[..Header::FULL_SIZE]`, which panics when the
buffer is shorter than 22 bytes; then parses the header and checks the
declared table sizes against the buffer length. -/
def ResTblReader.new (data : List Nat) : Except Failure Reader :=
  if data.length < headerFullSize then
    .error .panic
  else
    match Header.read (data.take headerFullSize) with
    | .error e => .error (.err e)
    | .ok h =>
      let expected := headerFullSize + h.crcTableCount * 8 + h.nameTableCount * 164
      if data.length < expected then
        .error (.err (.invalidTableSize data.length expected))
      else
        .ok ⟨data, h⟩

namespace Reader

/-- Total record count (`ResTblReader::len`): the u32 sum of the two header
counts (`crc_table_count + name_table_count` is computed on `u32` before the
`as usize` widening in `src/bin.rs`), so the sum wraps modulo `2^32` as the
source's release-build u32 addition does. -/
def len (r : Reader) : Nat :=
  (r.header.crcTableCount + r.header.nameTableCount) % 4294967296

/-- Byte offset of the name table (`name_table_offset`, `src/bin.rs`). -/
def nameTableOffset (r : Reader) : Nat :=
  headerFullSize + r.header.crcTableCount * 8

/-- Hash entry at hash-table index `i` (`parse_hash_entry`, `src/bin.rs`):
the two u32 fields at `header_size + i*8`, read without further checks
(sound in the source because `new` validated the buffer size). -/
def parseHashEntry (r : Reader) (i : Nat) : Nat × Nat :=
  (u32At r.data (headerFullSize + i * 8), u32At r.data (headerFullSize + i * 8 + 4))

/-- Name entry at name-table index `i` (`parse_name_entry`, `src/bin.rs`). -/
def parseNameEntry (r : Reader) (i : Nat) : Except Err NameEntry :=
  NameEntry.read (slice r.data (r.nameTableOffset + i * 164) 164)

/-- Binary search loop of `find_hash_entry` (`src/bin.rs`) over the interval
`[start, stop)` of hash-table indices. -/
def findHashEntryAux (r : Reader) (hash : Nat) (start stop : Nat) : Option (Nat × Nat) :=
  if hlt : start < stop then
    let mid := (start + stop) / 2
    let entry := r.parseHashEntry mid
    match compare entry.1 hash with
    | .lt => r.findHashEntryAux hash (mid + 1) stop
    | .gt => r.findHashEntryAux hash start mid
    | .eq => some entry
  else none
termination_by stop - start
decreasing_by
  · omega
  · have : (start + stop) / 2 < stop := by omega
    omega

/-- Binary search over the hash sub-table (`find_hash_entry`). -/
def findHashEntry (r : Reader) (hash : Nat) : Option (Nat × Nat) :=
  r.findHashEntryAux hash 0 r.header.crcTableCount

/-- Binary search loop of `find_name_entry` (`src/bin.rs`): decodes the name
record at each probed midpoint, aborting with `none` on a decode failure
(`.ok()?` in the source); string comparison is byte-lexicographic. -/
def findNameEntryAux (r : Reader) (s : List Nat) (start stop : Nat) : Option NameEntry :=
  if hlt : start < stop then
    let mid := (start + stop) / 2
    match r.parseNameEntry mid with
    | .error _ => none
    | .ok entry =>
      match lexOrd entry.name.asStr s with
      | .lt => r.findNameEntryAux s (mid + 1) stop
      | .gt => r.findNameEntryAux s start mid
      | .eq => some entry
  else none
termination_by stop - start
decreasing_by
  · omega
  · have : (start + stop) / 2 < stop := by omega
    omega

/-- Binary search over the name sub-table (`find_name_entry`). -/
def findNameEntry (r : Reader) (s : List Nat) : Option NameEntry :=
  r.findNameEntryAux s 0 r.header.nameTableCount

end Reader

/-- A lookup key (`TableIndex`, `src/lib.rs`): a raw hash or a path string. -/
inductive TableIndex
  | hashIdx (h : Nat)
  | strIdx (s : List Nat)
  deriving DecidableEq, Repr

/-- Table entry produced by iteration (`TableEntry`, `src/bin.rs`). -/
inductive TableEntry
  | hash (e : Nat × Nat)
  | name (e : NameEntry)
  deriving DecidableEq, Repr

namespace Reader

/-- Lookup (`ResTblReader::get`, `src/bin.rs`): a raw hash searches only the
hash sub-table; a path searches the name sub-table first and falls back to
the hash sub-table under the path's CRC. -/
def get (r : Reader) : TableIndex → Option Nat
  | .hashIdx h => (r.findHashEntry h).map (fun e => e.2)
  | .strIdx s =>
    ((r.findNameEntry s).map (fun e => e.value)).or
      ((r.findHashEntry (hash_name s)).map (fun e => e.2))

/-- Membership test (`ResTblReader::contains`, `src/bin.rs`). -/
def containsKey (r : Reader) : TableIndex → Bool
  | .hashIdx h => (r.findHashEntry h).isSome
  | .strIdx s => (r.findNameEntry s).isSome || (r.findHashEntry (hash_name s)).isSome

/-- Name-record phase of the iterator (`ResTblIterator::next`, `src/bin.rs`):
starting at byte offset `start`, keep decoding 164-byte records while the
next record still fits in the buffer and decodes; stop (yield nothing more)
on the first record that runs past the end or fails to decode. -/
def readNameEntries (data : List Nat) (start : Nat) : List NameEntry :=
  if hfit : start + 164 ≤ data.length then
    match NameEntry.read (slice data start 164) with
    | .ok e => e :: readNameEntries data (start + 164)
    | .error _ => []
  else []
termination_by data.length - start
decreasing_by omega

/-- Full iteration (`ResTblReader::iter` driven to exhaustion): hash entries
for indices below `crc_table_count`, then the name-record phase. Note the
name phase is bounded by the buffer, not by `name_table_count`. -/
def iterEntries (r : Reader) : List TableEntry :=
  ((List.range r.header.crcTableCount).map (fun i => TableEntry.hash (r.parseHashEntry i))) ++
    (readNameEntries r.data r.nameTableOffset).map TableEntry.name

end Reader

/-! ## Sorted association maps, modelling `alloc::collections::BTreeMap` -/

section SortedMap

variable {κ ν : Type} (cmp : κ → κ → Ordering)

/-- Insertion into a sorted association list, with `BTreeMap::insert`
semantics: on an existing key the value is replaced but the stored key is
kept, and the old value is the one returned by the caller's `get`. -/
def mapInsert (k : κ) (v : ν) : List (κ × ν) → List (κ × ν)
  | [] => [(k, v)]
  | (k', v') :: rest =>
    match cmp k k' with
    | .lt => (k, v) :: (k', v') :: rest
    | .eq => (k', v) :: rest
    | .gt => (k', v') :: mapInsert k v rest

/-- Lookup in a sorted association list (`BTreeMap::get`). -/
def mapGet (k : κ) : List (κ × ν) → Option ν
  | [] => none
  | (k', v') :: rest =>
    match cmp k k' with
    | .eq => some v'
    | _ => mapGet k rest

/-- Removal from a sorted association list (`BTreeMap::remove`). -/
def mapRemove (k : κ) : List (κ × ν) → List (κ × ν)
  | [] => []
  | (k', v') :: rest =>
    match cmp k k' with
    | .eq => rest
    | _ => (k', v') :: mapRemove k rest

/-- Strictly increasing keys, the invariant of `BTreeMap` iteration order. -/
def mapSorted : List (κ × ν) → Prop
  | [] => True
  | [_] => True
  | (k1, _) :: (k2, v2) :: rest => cmp k1 k2 = .lt ∧ mapSorted ((k2, v2) :: rest)

end SortedMap

/-- Key comparison of `BTreeMap<u32, u32>`. -/
def natCmp (a b : Nat) : Ordering := compare a b

/-! ## Owned table (`ResourceSizeTable`, `src/lib.rs`) -/

/-- Owned, mutable table (`ResourceSizeTable`, `src/lib.rs`): a sorted
hash→value map and a sorted name→value map. -/
structure RSTable where
  crc_table : List (Nat × Nat)
  name_table : List (Name × Nat)
  deriving DecidableEq, Repr

namespace RSTable

/-- Total entry count (`ResourceSizeTable::len`). -/
def len (t : RSTable) : Nat :=
  t.crc_table.length + t.name_table.length

/-- Lookup (`ResourceSizeTable::get`, `src/lib.rs`): a raw hash key searches
only the hash map; a path key searches the name map first (under
`Name::from(path)`) and falls back to the hash map at the path's CRC. -/
def get (t : RSTable) : TableIndex → Option Nat
  | .hashIdx h => mapGet natCmp h t.crc_table
  | .strIdx s =>
    (mapGet Name.cmp (Name.fromStr s) t.name_table).or
      (mapGet natCmp (hash_name s) t.crc_table)

/-- Membership test (`ResourceSizeTable::contains`, `src/lib.rs`). -/
def containsKey (t : RSTable) : TableIndex → Bool
  | .hashIdx h => (mapGet natCmp h t.crc_table).isSome
  | .strIdx s =>
    (mapGet Name.cmp (Name.fromStr s) t.name_table).isSome ||
      (mapGet natCmp (hash_name s) t.crc_table).isSome

/-- Mutation (`ResourceSizeTable::set`, `src/lib.rs`), returning the updated
table and the previous value: a raw hash upserts into the hash map; a path
key overwrites in place when `Name::from(path)` is an occupied key of the
name map (`Entry::Occupied`), and otherwise upserts into the hash map under
the path's CRC (`Entry::Vacant`). -/
def set (t : RSTable) (key : TableIndex) (value : Nat) : RSTable × Option Nat :=
  match key with
  | .hashIdx h =>
    ({ t with crc_table := mapInsert natCmp h value t.crc_table },
      mapGet natCmp h t.crc_table)
  | .strIdx s =>
    let nm := Name.fromStr s
    match mapGet Name.cmp nm t.name_table with
    | some old =>
      ({ t with name_table := mapInsert Name.cmp nm value t.name_table }, some old)
    | none =>
      ({ t with crc_table := mapInsert natCmp (hash_name s) value t.crc_table },
        mapGet natCmp (hash_name s) t.crc_table)

/-- Removal (`ResourceSizeTable::remove`, `src/lib.rs`). -/
def remove (t : RSTable) (key : TableIndex) : RSTable × Option Nat :=
  match key with
  | .hashIdx h =>
    ({ t with crc_table := mapRemove natCmp h t.crc_table },
      mapGet natCmp h t.crc_table)
  | .strIdx s =>
    let nm := Name.fromStr s
    match mapGet Name.cmp nm t.name_table with
    | some old => ({ t with name_table := mapRemove Name.cmp nm t.name_table }, some old)
    | none =>
      ({ t with crc_table := mapRemove natCmp (hash_name s) t.crc_table },
        mapGet natCmp (hash_name s) t.crc_table)

/-- Materialization of one iterated entry into the two maps, shared by
`ResourceSizeTable::from_parser` and `from_binary` (`src/lib.rs`,
`src/bin.rs`): hash entries go to the hash map, name entries to the name
map, last-write-wins. -/
def insertEntry (t : RSTable) : TableEntry → RSTable
  | .hash e => { t with crc_table := mapInsert natCmp e.1 e.2 t.crc_table }
  | .name e => { t with name_table := mapInsert Name.cmp e.name e.value t.name_table }

/-- Construction from a reader (`ResourceSizeTable::from_parser`): drain the
iterator into the two maps. -/
def fromParser (r : Reader) : RSTable :=
  (r.iterEntries).foldl insertEntry ⟨[], []⟩

end RSTable

/-- Construction from bytes (`ResourceSizeTable::from_binary`, `src/bin.rs`):
validate and wrap with `ResTblReader::new`, then drain the iterator. -/
def from_binary (data : List Nat) : Except Failure RSTable :=
  (ResTblReader.new data).map RSTable.fromParser

/-- Serialization (`ResourceSizeTable::to_binary`, `src/bin.rs`): header with
`version = 1`, `string_block_size = 160` and the two map sizes, then every
hash record in map order, then every name record in map order. -/
def to_binary (t : RSTable) : List Nat :=
  Header.write ⟨1, 160, t.crc_table.length, t.name_table.length⟩ ++
    (t.crc_table.flatMap (fun e => le32 e.1 ++ le32 e.2)) ++
    (t.name_table.flatMap (fun e => e.1.inner ++ le32 e.2))

/-! ## Text codec (`src/text.rs`) -/

/-- First split of a line at the separator `": "` (`line.split(": ")`):
returns the part before the first occurrence and the rest after it. -/
def splitSep : List Nat → Option (List Nat × List Nat)
  | 58 :: 32 :: rest => some ([], rest)
  | b :: rest => (splitSep rest).map (fun p => (b :: p.1, p.2))
  | [] => none

/-- Decimal digit string to number: `none` unless nonempty and all ASCII
digits. -/
def decDigits : List Nat → Option Nat
  | [] => none
  | l =>
    if l.all (fun b => 48 ≤ b && b ≤ 57) then
      some (l.foldl (fun acc b => acc * 10 + (b - 48)) 0)
    else none

/-- Rust `str::parse::<u32>`: an optional leading `+`, then one or more
decimal digits, failing when the value exceeds `u32::MAX`. -/
def parseU32 (l : List Nat) : Option Nat :=
  let body := match l with
    | 43 :: rest => rest
    | _ => l
  match decDigits body with
  | some n => if n < 4294967296 then some n else none
  | none => none

/-- Per-line step of `ResourceSizeTable::from_text` (`src/text.rs`): split at
`": "` into key and value text (a missing separator is a `YamlError`; the
value segment is the text between the first and second separators); parse the
value as `u32` (`YamlInvalidNumber` on failure). A key that parses as `u32`
is inserted into the hash map directly; otherwise the key is hashed, and the
entry goes to the hash map when that hash is vacant but the raw key text
becomes a name entry when the hash is already occupied. -/
def fromTextLine (t : RSTable) (line : List Nat) : Except Err RSTable :=
  match splitSep line with
  | none => .error (.yamlError line)
  | some (key, rest) =>
    let valueStr := match splitSep rest with
      | some p => p.1
      | none => rest
    match parseU32 valueStr with
    | none => .error .yamlInvalidNumber
    | some value =>
      match parseU32 key with
      | some hash => .ok { t with crc_table := mapInsert natCmp hash value t.crc_table }
      | none =>
        let h := hash_name key
        match mapGet natCmp h t.crc_table with
        | some _ =>
          .ok { t with
                  name_table := mapInsert Name.cmp (Name.fromStr key) value t.name_table }
        | none => .ok { t with crc_table := mapInsert natCmp h value t.crc_table }

/-- Deserialization from text (`ResourceSizeTable::from_text`, `src/text.rs`)
over the line-split input (the result of Rust `text.lines()`): fold the
per-line step over an initially empty table. -/
def fromText (lines : List (List Nat)) : Except Err RSTable :=
  lines.foldlM fromTextLine ⟨[], []⟩

/-! ## Well-formedness predicates and auxiliary definitions for the claims -/

/-- Strictly ascending key order of an association list under `cmp`, i.e. the
iteration-order invariant `BTreeMap` maintains. -/
def sortedByKey {κ ν : Type} (cmp : κ → κ → Ordering) : List (κ × ν) → Bool
  | [] => true
  | [_] => true
  | a :: b :: rest => cmp a.1 b.1 == .lt && sortedByKey cmp (b :: rest)

/-- Well-formed `Name` as stored in a canonical file: a 160-byte buffer whose
logical string (at most 159 valid-UTF-8 nonzero bytes) is left-aligned and
followed only by zero padding. -/
def wfName (nm : Name) : Prop :=
  nm.inner = nm.asStr ++ List.replicate (160 - nm.asStr.length) 0 ∧
    nm.asStr.length ≤ 159 ∧ validUtf8 nm.asStr = true ∧ ∀ b ∈ nm.asStr, b < 256

/-- Well-formed owned table: both maps strictly sorted (hashes numerically,
names by string), all stored integers in `u32` range, all names canonical
160-byte zero-padded buffers. A canonically sorted valid RESTBL file is
exactly `to_binary` of such a table. -/
def wfTable (t : RSTable) : Prop :=
  sortedByKey natCmp t.crc_table = true ∧
    sortedByKey Name.cmp t.name_table = true ∧
    t.crc_table.length < 4294967296 ∧ t.name_table.length < 4294967296 ∧
    (∀ e ∈ t.crc_table, e.1 < 4294967296 ∧ e.2 < 4294967296) ∧
    (∀ e ∈ t.name_table, wfName e.1 ∧ e.2 < 4294967296)

/-- Application of a finite sequence of `set` operations to a table. -/
def applySets (ops : List (TableIndex × Nat)) (t : RSTable) : RSTable :=
  ops.foldl (fun acc op => (acc.set op.1 op.2).1) t

/-- Decodability of the 164-byte record at byte offset `start` (the
condition under which the reader's iterator keeps yielding name entries). -/
def chunkOk (data : List Nat) (start : Nat) : Bool :=
  (NameEntry.read (slice data start 164)).isOk

/-! ## Concrete test vectors used by witnesses and counterexamples -/

/-- A one-byte name `"A"`. -/
def nameA : Name := Name.fromStr [65]

/-- A one-byte name `"B"`. -/
def nameB : Name := Name.fromStr [66]

/-- A small well-formed table: two hash entries and one name entry. -/
def tableSmall : RSTable := ⟨[(1, 10), (5, 20)], [(nameA, 7)]⟩

/-- A 22-byte buffer: valid header declaring one hash record and no name
records, with no record data behind it. -/
def bufHeaderOnly : List Nat := MAGIC ++ le32 1 ++ le32 160 ++ le32 1 ++ le32 0

/-- A 186-byte buffer: valid empty table header (both counts zero) followed
by 164 trailing bytes whose first byte `0xFF` makes the trailing record fail
UTF-8 decoding. -/
def bufTrailingJunk : List Nat :=
  MAGIC ++ le32 1 ++ le32 160 ++ le32 0 ++ le32 0 ++ (255 :: List.replicate 163 0)

/-- A 186-byte buffer: valid empty table header followed by one decodable
164-byte name record (`"B"` with value 7) that the header does not declare. -/
def bufTrailingRecord : List Nat :=
  MAGIC ++ le32 1 ++ le32 160 ++ le32 0 ++ le32 0 ++ nameB.inner ++ le32 7

/-! ## Ordering lemmas -/

theorem lexOrd_refl : ∀ l : List Nat, lexOrd l l = .eq
  | [] => rfl
  | a :: xs => by
    unfold lexOrd
    rw [Nat.compare_eq_eq.mpr rfl]
    exact lexOrd_refl xs

theorem lexOrd_eq_iff : ∀ a b : List Nat, lexOrd a b = .eq ↔ a = b
  | [], [] => by simp [lexOrd]
  | [], _ :: _ => by simp [lexOrd]
  | _ :: _, [] => by simp [lexOrd]
  | a :: xs, b :: ys => by
    unfold lexOrd
    rcases h : compare a b with hlt | heq | hgt
    · simp [Nat.compare_eq_lt.mp h |>.ne]
    · have hab : a = b := Nat.compare_eq_eq.mp h
      simp [hab, lexOrd_eq_iff xs ys]
    · have : b < a := Nat.compare_eq_gt.mp h
      simp [this.ne']

theorem lexOrd_gt_iff : ∀ a b : List Nat, lexOrd a b = .gt ↔ lexOrd b a = .lt
  | [], [] => by simp [lexOrd]
  | [], _ :: _ => by simp [lexOrd]
  | _ :: _, [] => by simp [lexOrd]
  | a :: xs, b :: ys => by
    unfold lexOrd
    rcases h : compare a b with hlt | heq | hgt
    · have : b > a := Nat.compare_eq_lt.mp h
      rw [Nat.compare_eq_gt.mpr this]
      simp
    · have hab : a = b := Nat.compare_eq_eq.mp h
      subst hab
      rw [Nat.compare_eq_eq.mpr rfl]
      exact lexOrd_gt_iff xs ys
    · have : b < a := Nat.compare_eq_gt.mp h
      rw [Nat.compare_eq_lt.mpr this]
      simp

theorem lexOrd_lt_trans :
    ∀ a b c : List Nat, lexOrd a b = .lt → lexOrd b c = .lt → lexOrd a c = .lt
  | [], [], _, hab, _ => by simp [lexOrd] at hab
  | [], _ :: _, [], _, hbc => by simp [lexOrd] at hbc
  | [], _ :: _, _ :: _, _, _ => by simp [lexOrd]
  | _ :: _, [], _, hab, _ => by simp [lexOrd] at hab
  | _ :: _, _ :: _, [], _, hbc => by simp [lexOrd] at hbc
  | a :: xs, b :: ys, c :: zs, hab, hbc => by
    unfold lexOrd at hab hbc ⊢
    rcases h1 : compare a b with _ | _ | _ <;> rw [h1] at hab
    · rcases h2 : compare b c with _ | _ | _ <;> rw [h2] at hbc
      · rw [Nat.compare_eq_lt.mpr
          (lt_trans (Nat.compare_eq_lt.mp h1) (Nat.compare_eq_lt.mp h2))]
      · rw [show compare a c = Ordering.lt from Nat.compare_eq_eq.mp h2 ▸ h1]
      · exact Ordering.noConfusion hbc
    · rcases h2 : compare b c with _ | _ | _ <;> rw [h2] at hbc
      · rw [show compare a c = Ordering.lt from Nat.compare_eq_eq.mp h1 ▸ h2]
      · rw [show compare a c = Ordering.eq from Nat.compare_eq_eq.mp h1 ▸ h2]
        exact lexOrd_lt_trans xs ys zs hab hbc
      · exact Ordering.noConfusion hbc
    · exact Ordering.noConfusion hab

theorem Name.cmp_refl (n : Name) : Name.cmp n n = .eq :=
  lexOrd_refl n.asStr

theorem Name.cmp_eq_iff (a b : Name) : Name.cmp a b = .eq ↔ a.asStr = b.asStr :=
  lexOrd_eq_iff a.asStr b.asStr

theorem Name.cmp_gt_iff (a b : Name) : Name.cmp a b = .gt ↔ Name.cmp b a = .lt :=
  lexOrd_gt_iff a.asStr b.asStr

theorem Name.cmp_lt_trans {a b c : Name} (h1 : Name.cmp a b = .lt) (h2 : Name.cmp b c = .lt) :
    Name.cmp a c = .lt :=
  lexOrd_lt_trans a.asStr b.asStr c.asStr h1 h2

theorem natCmp_refl (n : Nat) : natCmp n n = .eq :=
  Nat.compare_eq_eq.mpr rfl

theorem natCmp_eq_iff (a b : Nat) : natCmp a b = .eq ↔ a = b :=
  Nat.compare_eq_eq

theorem natCmp_gt_iff (a b : Nat) : natCmp a b = .gt ↔ natCmp b a = .lt := by
  unfold natCmp
  rw [Nat.compare_eq_gt, Nat.compare_eq_lt]

theorem natCmp_lt_trans {a b c : Nat} (h1 : natCmp a b = .lt) (h2 : natCmp b c = .lt) :
    natCmp a c = .lt :=
  Nat.compare_eq_lt.mpr (lt_trans (Nat.compare_eq_lt.mp h1) (Nat.compare_eq_lt.mp h2))

theorem natCmp_lt_trans3 :
    ∀ x y z : Nat, natCmp x y = .lt → natCmp y z = .lt → natCmp x z = .lt :=
  fun _ _ _ h1 h2 => natCmp_lt_trans h1 h2

theorem natCmp_lt_swap : ∀ a b : Nat, natCmp a b = .lt → natCmp b a = .gt :=
  fun a b h => (natCmp_gt_iff b a).mpr h

theorem nameCmp_lt_trans3 :
    ∀ x y z : Name, Name.cmp x y = .lt → Name.cmp y z = .lt → Name.cmp x z = .lt :=
  fun _ _ _ h1 h2 => Name.cmp_lt_trans h1 h2

theorem nameCmp_lt_swap : ∀ a b : Name, Name.cmp a b = .lt → Name.cmp b a = .gt :=
  fun a b h => (Name.cmp_gt_iff b a).mpr h

/-! ## CRC equivalence lemmas -/

theorem hashRound_eq_iterate : ∀ (j : Nat) (crc : Nat), hashRound crc j = crcSpecStep^[j] crc
  | 0, crc => rfl
  | j + 1, crc => by
    rw [hashRound, hashRound_eq_iterate j, Function.iterate_succ_apply]
    rcases Nat.mod_two_eq_zero_or_one crc with h | h <;> simp [crcSpecStep, h]

theorem hashLoop_eq_foldl (s : List Nat) :
    ∀ crc, hashLoop crc s = s.foldl (fun c b => crcSpecStep^[8] (c ^^^ b)) crc := by
  induction s with
  | nil => intro crc; rfl
  | cons b rest ih =>
    intro crc
    show hashLoop (hashRound (crc ^^^ b) 8) rest = _
    rw [List.foldl_cons, ih, hashRound_eq_iterate]

/-- C7: `hash_name` computes the standard reflected CRC-32: register
initialized to `0xFFFFFFFF`, each byte xored into the low bits followed by 8
conditional shift-xor steps with polynomial `0xEDB88320`, and the final
register bitwise complemented; as a Lean function it is deterministic and
pure by construction. -/
theorem c7_hash_name_is_crc32 (s : List Nat) : hash_name s = crc32Spec s := by
  rw [hash_name, crc32Spec, hashLoop_eq_foldl]

/-- C3 (code bug evaluation): `ResTblReader::new` on a buffer shorter than 22
bytes panics (out-of-bounds slice `&data[..0x16]`) instead of returning the
typed `InsufficientData` error; evaluated here on the empty buffer and a
10-byte buffer. -/
theorem c3_new_short_buffer_panics :
    ResTblReader.new [] = .error .panic ∧
      ResTblReader.new (List.replicate 10 0) = .error .panic := by
  constructor <;> decide

set_option maxRecDepth 4096 in
/-- C4 (code bug evaluation): `Name::try_from` accepts an input of 160
non-zero bytes (here 160 times `'a'`), returning a `Name` whose buffer
contains no zero terminator at all, instead of failing with a typed error. -/
theorem c4_tryFrom_accepts_unterminated :
    Name.tryFrom (List.replicate 160 97) = .ok ⟨List.replicate 160 97⟩ ∧
      ¬ (0 ∈ (Name.mk (List.replicate 160 97)).inner) := by
  constructor <;> decide

/-! ## Generic sorted-map lemmas -/

section MapLemmas

variable {κ ν : Type} {cmp : κ → κ → Ordering}

theorem ordBeq_true {o o' : Ordering} : (o == o') = true ↔ o = o' := by
  cases o <;> cases o' <;> decide

theorem mapInsert_cons_lt {k k' : κ} {v v' : ν} {rest : List (κ × ν)}
    (h : cmp k k' = .lt) :
    mapInsert cmp k v ((k', v') :: rest) = (k, v) :: (k', v') :: rest := by
  simp [mapInsert, h]

theorem mapInsert_cons_eq {k k' : κ} {v v' : ν} {rest : List (κ × ν)}
    (h : cmp k k' = .eq) :
    mapInsert cmp k v ((k', v') :: rest) = (k', v) :: rest := by
  simp [mapInsert, h]

theorem mapInsert_cons_gt {k k' : κ} {v v' : ν} {rest : List (κ × ν)}
    (h : cmp k k' = .gt) :
    mapInsert cmp k v ((k', v') :: rest) = (k', v') :: mapInsert cmp k v rest := by
  simp [mapInsert, h]

theorem mapGet_cons_eq {k k' : κ} {v' : ν} {rest : List (κ × ν)}
    (h : cmp k k' = .eq) : mapGet cmp k ((k', v') :: rest) = some v' := by
  simp [mapGet, h]

theorem mapGet_cons_ne {k k' : κ} {v' : ν} {rest : List (κ × ν)}
    (h : cmp k k' ≠ .eq) : mapGet cmp k ((k', v') :: rest) = mapGet cmp k rest := by
  rcases hk : cmp k k' with _ | _ | _ <;> simp [mapGet, hk]
  exact absurd hk h

theorem mapGet_mapInsert_self {k : κ} {v : ν} (hrefl : cmp k k = .eq) :
    ∀ l : List (κ × ν), mapGet cmp k (mapInsert cmp k v l) = some v
  | [] => by simp [mapInsert, mapGet, hrefl]
  | (k', v') :: rest => by
    rcases h : cmp k k' with _ | _ | _
    · rw [mapInsert_cons_lt h, mapGet_cons_eq hrefl]
    · rw [mapInsert_cons_eq h, mapGet_cons_eq h]
    · rw [mapInsert_cons_gt h, mapGet_cons_ne (by simp [h]),
        mapGet_mapInsert_self hrefl rest]

theorem mapGet_mapInsert_of_ne {q k : κ} {v : ν} (hrefl : cmp k k = .eq)
    (hne : ∀ x, cmp q x = .eq → cmp k x = .eq → False) :
    ∀ l : List (κ × ν), mapGet cmp q (mapInsert cmp k v l) = mapGet cmp q l
  | [] => by
    have hq : cmp q k ≠ .eq := fun h => hne k h hrefl
    show mapGet cmp q [(k, v)] = none
    rw [mapGet_cons_ne hq]
    rfl
  | (k', v') :: rest => by
    have hq : cmp q k ≠ .eq := fun h => hne k h hrefl
    rcases h : cmp k k' with _ | _ | _
    · rw [mapInsert_cons_lt h, mapGet_cons_ne hq]
    · have hqk' : cmp q k' ≠ .eq := fun hc => hne k' hc h
      rw [mapInsert_cons_eq h, mapGet_cons_ne hqk', mapGet_cons_ne hqk']
    · by_cases hqk : cmp q k' = .eq
      · rw [mapInsert_cons_gt h, mapGet_cons_eq hqk, mapGet_cons_eq hqk]
      · rw [mapInsert_cons_gt h, mapGet_cons_ne hqk, mapGet_cons_ne hqk,
          mapGet_mapInsert_of_ne hrefl hne rest]

theorem sortedByKey_cons₂ {a b : κ × ν} {l : List (κ × ν)} :
    sortedByKey cmp (a :: b :: l) = true ↔
      cmp a.1 b.1 = .lt ∧ sortedByKey cmp (b :: l) = true := by
  show (cmp a.1 b.1 == .lt && sortedByKey cmp (b :: l)) = true ↔ _
  simp only [Bool.and_eq_true, ordBeq_true]

theorem sortedByKey_keys {l l' : List (κ × ν)} (h : l.map Prod.fst = l'.map Prod.fst) :
    sortedByKey cmp l = sortedByKey cmp l' := by
  induction l generalizing l' with
  | nil =>
    cases l' with
    | nil => rfl
    | cons b t => simp at h
  | cons a t ih =>
    cases l' with
    | nil => simp at h
    | cons b t' =>
      simp only [List.map_cons, List.cons.injEq] at h
      obtain ⟨hk, ht⟩ := h
      cases t with
      | nil =>
        cases t' with
        | nil => rfl
        | cons c u => simp at ht
      | cons c u =>
        cases t' with
        | nil => simp at ht
        | cons d u' =>
          have hcd : c.1 = d.1 := by
            simp only [List.map_cons, List.cons.injEq] at ht
            exact ht.1
          show (cmp a.1 c.1 == .lt && _) = (cmp b.1 d.1 == .lt && _)
          rw [hk, hcd, ih ht]

theorem sortedByKey_tail {a : κ × ν} {l : List (κ × ν)}
    (h : sortedByKey cmp (a :: l) = true) : sortedByKey cmp l = true := by
  cases l with
  | nil => rfl
  | cons b t => exact (sortedByKey_cons₂.mp h).2

theorem sortedByKey_head_lt {a : κ × ν} {l : List (κ × ν)}
    (htrans : ∀ x y z, cmp x y = .lt → cmp y z = .lt → cmp x z = .lt)
    (h : sortedByKey cmp (a :: l) = true) :
    ∀ e ∈ l, cmp a.1 e.1 = .lt := by
  induction l generalizing a with
  | nil => intro e he; simp at he
  | cons b t ih =>
    intro e he
    have h1 : cmp a.1 b.1 = .lt := (sortedByKey_cons₂.mp h).1
    rcases List.mem_cons.mp he with rfl | he'
    · exact h1
    · exact htrans _ _ _ h1 (ih (sortedByKey_cons₂.mp h).2 e he')

theorem mapGet_eq_none_of_all_ne {k : κ} {l : List (κ × ν)}
    (h : ∀ e ∈ l, cmp k e.1 ≠ .eq) : mapGet cmp k l = none := by
  induction l with
  | nil => rfl
  | cons a t ih =>
    rcases a with ⟨ka, va⟩
    rw [mapGet_cons_ne (h (ka, va) (List.mem_cons_self _ _))]
    exact ih (fun e he => h e (List.mem_cons_of_mem _ he))

theorem mapInsert_sorted {k : κ} {v : ν}
    (hswap : ∀ a b, cmp a b = .gt → cmp b a = .lt) :
    ∀ l : List (κ × ν), sortedByKey cmp l = true →
      sortedByKey cmp (mapInsert cmp k v l) = true
  | [], _ => rfl
  | (k1, v1) :: rest, hs => by
    rcases h : cmp k k1 with _ | _ | _
    · rw [mapInsert_cons_lt h]
      exact sortedByKey_cons₂.mpr ⟨h, hs⟩
    · rw [mapInsert_cons_eq h]
      rw [sortedByKey_keys (show ((k1, v) :: rest).map Prod.fst =
        ((k1, v1) :: rest).map Prod.fst from by simp)]
      exact hs
    · rw [mapInsert_cons_gt h]
      have hrest : sortedByKey cmp (mapInsert cmp k v rest) = true :=
        mapInsert_sorted hswap rest (sortedByKey_tail hs)
      cases rest with
      | nil =>
        exact sortedByKey_cons₂.mpr ⟨hswap _ _ h, rfl⟩
      | cons b t =>
        rcases b with ⟨kb, vb⟩
        have h1 : cmp k1 kb = .lt := (sortedByKey_cons₂.mp hs).1
        rcases h2 : cmp k kb with _ | _ | _
        · rw [mapInsert_cons_lt h2] at hrest ⊢
          exact sortedByKey_cons₂.mpr ⟨hswap _ _ h, hrest⟩
        · rw [mapInsert_cons_eq h2] at hrest ⊢
          exact sortedByKey_cons₂.mpr ⟨h1, hrest⟩
        · rw [mapInsert_cons_gt h2] at hrest ⊢
          exact sortedByKey_cons₂.mpr ⟨h1, hrest⟩

theorem mapInsert_keys_of_found {k : κ} {v v₀ : ν}
    (htrans : ∀ x y z, cmp x y = .lt → cmp y z = .lt → cmp x z = .lt) :
    ∀ l : List (κ × ν), sortedByKey cmp l = true → mapGet cmp k l = some v₀ →
      (mapInsert cmp k v l).map Prod.fst = l.map Prod.fst
  | [], _, hget => by simp [mapGet] at hget
  | (k1, v1) :: rest, hs, hget => by
    rcases h : cmp k k1 with _ | _ | _
    · exfalso
      have hnone : mapGet cmp k ((k1, v1) :: rest) = none := by
        apply mapGet_eq_none_of_all_ne
        intro e he
        rcases List.mem_cons.mp he with rfl | he'
        · simp [h]
        · have : cmp k e.1 = .lt :=
            htrans _ _ _ h (sortedByKey_head_lt htrans hs e he')
          simp [this]
      rw [hnone] at hget
      exact Option.noConfusion hget
    · rw [mapInsert_cons_eq h]
      simp
    · rw [mapInsert_cons_gt h]
      have hget' : mapGet cmp k rest = some v₀ := by
        rw [mapGet_cons_ne (by simp [h])] at hget
        exact hget
      simp [mapInsert_keys_of_found htrans rest (sortedByKey_tail hs) hget']

theorem mapInsert_append_of_gt {k : κ} {v : ν} :
    ∀ l : List (κ × ν), (∀ e ∈ l, cmp k e.1 = .gt) →
      mapInsert cmp k v l = l ++ [(k, v)]
  | [], _ => rfl
  | (k1, v1) :: rest, hgt => by
    rw [mapInsert_cons_gt (hgt (k1, v1) (List.mem_cons_self _ _))]
    rw [mapInsert_append_of_gt rest (fun e he => hgt e (List.mem_cons_of_mem _ he))]
    rfl

end MapLemmas

/-! ## Byte-level lemmas about the serialized layout -/

theorem byteAt_append_left {a : List Nat} (b : List Nat) {i : Nat} (h : i < a.length) :
    byteAt (a ++ b) i = byteAt a i := by
  simp [byteAt, List.getD_eq_getElem?_getD, List.getElem?_append, h]

theorem byteAt_append_right {a : List Nat} (b : List Nat) {i : Nat} (h : a.length ≤ i) :
    byteAt (a ++ b) i = byteAt b (i - a.length) := by
  simp [byteAt, List.getD_eq_getElem?_getD, List.getElem?_append, Nat.not_lt.mpr h]

theorem le32_length (n : Nat) : (le32 n).length = 4 := rfl

theorem u32At_shift (p l : List Nat) {off : Nat} (hoff : off = p.length) :
    u32At (p ++ l) off = u32At l 0 := by
  subst hoff
  unfold u32At
  rw [byteAt_append_right l (le_refl _),
    byteAt_append_right l (by omega), byteAt_append_right l (by omega),
    byteAt_append_right l (by omega)]
  rw [show p.length - p.length = 0 from by omega,
    show p.length + 1 - p.length = 0 + 1 from by omega,
    show p.length + 2 - p.length = 0 + 2 from by omega,
    show p.length + 3 - p.length = 0 + 3 from by omega]

theorem u32At_le32 (n : Nat) (rest : List Nat) :
    u32At (le32 n ++ rest) 0 = n % 4294967296 := by
  have h0 : byteAt (le32 n ++ rest) 0 = n % 256 := rfl
  have h1 : byteAt (le32 n ++ rest) 1 = n / 256 % 256 := rfl
  have h2 : byteAt (le32 n ++ rest) 2 = n / 65536 % 256 := rfl
  have h3 : byteAt (le32 n ++ rest) 3 = n / 16777216 % 256 := rfl
  unfold u32At
  rw [show (0 : Nat) + 1 = 1 from rfl, show (0 : Nat) + 2 = 2 from rfl,
    show (0 : Nat) + 3 = 3 from rfl, h0, h1, h2, h3]
  omega

theorem u32At_block (p : List Nat) (n : Nat) (rest : List Nat) {off : Nat}
    (hoff : off = p.length) : u32At (p ++ (le32 n ++ rest)) off = n % 4294967296 := by
  rw [u32At_shift p _ hoff, u32At_le32]

theorem u32At_peel (a l : List Nat) {off : Nat} (h : a.length ≤ off) :
    u32At (a ++ l) off = u32At l (off - a.length) := by
  unfold u32At
  rw [byteAt_append_right l h, byteAt_append_right l (by omega),
    byteAt_append_right l (by omega), byteAt_append_right l (by omega)]
  rw [show off + 1 - a.length = off - a.length + 1 from by omega,
    show off + 2 - a.length = off - a.length + 2 from by omega,
    show off + 3 - a.length = off - a.length + 3 from by omega]

theorem flatMap8_length (l : List (Nat × Nat)) :
    (l.flatMap (fun e => le32 e.1 ++ le32 e.2)).length = 8 * l.length := by
  induction l with
  | nil => rfl
  | cons e tl ih =>
    rw [List.flatMap_cons, List.length_append, List.length_append, le32_length, le32_length,
      ih, List.length_cons]
    omega

theorem u32At_flat8 (l : List (Nat × Nat)) (rest : List Nat) :
    ∀ (i : Nat) (hi : i < l.length),
      u32At (l.flatMap (fun e => le32 e.1 ++ le32 e.2) ++ rest) (8 * i) =
          (l.get ⟨i, hi⟩).1 % 4294967296 ∧
        u32At (l.flatMap (fun e => le32 e.1 ++ le32 e.2) ++ rest) (8 * i + 4) =
          (l.get ⟨i, hi⟩).2 % 4294967296 := by
  induction l generalizing rest with
  | nil => intro i hi; simp at hi
  | cons e tl ih =>
    intro i hi
    have hform : (e :: tl).flatMap (fun e => le32 e.1 ++ le32 e.2) ++ rest =
        le32 e.1 ++ (le32 e.2 ++ (tl.flatMap (fun e => le32 e.1 ++ le32 e.2) ++ rest)) := by
      simp [List.flatMap_cons, List.append_assoc]
    rw [hform]
    cases i with
    | zero =>
      constructor
      · rw [show 8 * 0 = 0 from rfl, u32At_le32]
        rfl
      · rw [show 8 * 0 + 4 = 4 from rfl,
          u32At_peel (le32 e.1) _ (by rw [le32_length]),
          show (4 : Nat) - (le32 e.1).length = 0 from by rw [le32_length], u32At_le32]
        rfl
    | succ j =>
      have hj : j < tl.length := by simpa using hi
      have step1 : ∀ extra : Nat,
          u32At (le32 e.1 ++ (le32 e.2 ++ (tl.flatMap (fun e => le32 e.1 ++ le32 e.2) ++ rest)))
              (8 * (j + 1) + extra) =
            u32At (tl.flatMap (fun e => le32 e.1 ++ le32 e.2) ++ rest) (8 * j + extra) := by
        intro extra
        rw [u32At_peel (le32 e.1) _ (by simp only [le32_length]; omega),
          u32At_peel (le32 e.2) _ (by simp only [le32_length]; omega)]
        congr 1
        simp only [le32_length]
        omega
      constructor
      · have := step1 0
        rw [Nat.add_zero, Nat.add_zero] at this
        rw [this]
        exact ((ih rest j hj).1).trans (by congr 1)
      · rw [step1 4]
        exact ((ih rest j hj).2).trans (by congr 1)

theorem headerWrite_assoc (h : Header) :
    Header.write h = MAGIC ++ (le32 h.version ++ (le32 h.stringBlockSize ++
      (le32 h.crcTableCount ++ le32 h.nameTableCount))) := by
  simp [Header.write, List.append_assoc]

theorem headerWrite_length (h : Header) : (Header.write h).length = 22 := by
  simp [Header.write, le32, MAGIC]

theorem u32At_headerWrite_6 (h : Header) :
    u32At (Header.write h) 6 = h.version % 4294967296 := by
  rw [headerWrite_assoc]
  exact u32At_block _ _ _ (by simp [MAGIC])

theorem u32At_headerWrite_10 (h : Header) :
    u32At (Header.write h) 10 = h.stringBlockSize % 4294967296 := by
  rw [show Header.write h = (MAGIC ++ le32 h.version) ++ (le32 h.stringBlockSize ++
      (le32 h.crcTableCount ++ le32 h.nameTableCount)) from by
    simp [Header.write, List.append_assoc]]
  exact u32At_block _ _ _ (by simp [MAGIC, le32_length])

theorem u32At_headerWrite_14 (h : Header) :
    u32At (Header.write h) 14 = h.crcTableCount % 4294967296 := by
  rw [show Header.write h = (MAGIC ++ le32 h.version ++ le32 h.stringBlockSize) ++
      (le32 h.crcTableCount ++ le32 h.nameTableCount) from by
    simp [Header.write, List.append_assoc]]
  exact u32At_block _ _ _ (by simp [MAGIC, le32_length])

theorem u32At_headerWrite_18 (h : Header) :
    u32At (Header.write h) 18 = h.nameTableCount % 4294967296 := by
  rw [show Header.write h = (MAGIC ++ le32 h.version ++ le32 h.stringBlockSize ++
      le32 h.crcTableCount) ++ (le32 h.nameTableCount ++ []) from by
    simp [Header.write, List.append_assoc]]
  exact u32At_block _ _ _ (by simp [MAGIC, le32_length])

theorem header_read_write (h : Header) (rest : List Nat) :
    Header.read ((Header.write h ++ rest).take 22) =
      .ok ⟨h.version % 4294967296, h.stringBlockSize % 4294967296,
        h.crcTableCount % 4294967296, h.nameTableCount % 4294967296⟩ := by
  rw [List.take_left' (headerWrite_length h)]
  unfold Header.read headerFullSize
  rw [if_neg (by rw [headerWrite_length]; omega)]
  rw [if_neg (by
    rw [headerWrite_assoc, List.take_left' (by simp [MAGIC])]
    simp)]
  rw [u32At_headerWrite_6, u32At_headerWrite_10, u32At_headerWrite_14, u32At_headerWrite_18]

/-! ## Name-record lemmas -/

theorem wfName_inner_length {nm : Name} (h : wfName nm) : nm.inner.length = 160 := by
  obtain ⟨hpad, hlen, _, _⟩ := h
  rw [hpad, List.length_append, List.length_replicate]
  omega

theorem tryFrom_wfName {nm : Name} (h : wfName nm) : Name.tryFrom nm.inner = .ok nm := by
  obtain ⟨hpad, hlen, hutf, _⟩ := h
  unfold Name.tryFrom
  have hcopy : (nm.inner.takeWhile (fun b => b != 0)).take 160 = nm.asStr := by
    rw [show nm.inner.takeWhile (fun b => b != 0) = nm.asStr from rfl]
    exact List.take_of_length_le (by omega)
  rw [hcopy, if_pos hutf]
  exact congrArg Except.ok (congrArg Name.mk hpad.symm)

theorem nameFlat_length (ns : List (Name × Nat)) (h : ∀ e ∈ ns, wfName e.1) :
    (ns.flatMap (fun e => e.1.inner ++ le32 e.2)).length = 164 * ns.length := by
  induction ns with
  | nil => rfl
  | cons e tl ih =>
    rw [List.flatMap_cons, List.length_append, List.length_append, le32_length,
      wfName_inner_length (h e (List.mem_cons_self _ _)),
      ih (fun x hx => h x (List.mem_cons_of_mem _ hx)), List.length_cons]
    omega

theorem nameEntry_read_block {nm : Name} {v : Nat} (hwf : wfName nm)
    (hv : v < 4294967296) (rest : List Nat) :
    NameEntry.read ((nm.inner ++ le32 v ++ rest).take 164) = .ok ⟨nm, v⟩ := by
  have hblock : (nm.inner ++ le32 v).length = 164 := by
    rw [List.length_append, le32_length, wfName_inner_length hwf]
  have htake : (nm.inner ++ le32 v ++ rest).take 164 = nm.inner ++ le32 v :=
    List.take_left' hblock
  rw [htake]
  unfold NameEntry.read
  rw [if_neg (by omega)]
  rw [List.take_left' (wfName_inner_length hwf), tryFrom_wfName hwf]
  rw [show u32At (nm.inner ++ le32 v) 160 = u32At (nm.inner ++ (le32 v ++ [])) 160 from by
    simp, u32At_block _ _ _ (wfName_inner_length hwf).symm]
  rw [Nat.mod_eq_of_lt hv]

theorem readNameEntries_exact :
    ∀ (es : List (Name × Nat)) (pre : List Nat),
      (∀ e ∈ es, wfName e.1 ∧ e.2 < 4294967296) →
      Reader.readNameEntries (pre ++ es.flatMap (fun e => e.1.inner ++ le32 e.2)) pre.length =
        es.map (fun e => ⟨e.1, e.2⟩)
  | [], pre, _ => by
    rw [Reader.readNameEntries]
    simp
  | (nm, v) :: rest, pre, hwf => by
    have hw : wfName nm := (hwf (nm, v) (List.mem_cons_self _ _)).1
    have hv : v < 4294967296 := (hwf (nm, v) (List.mem_cons_self _ _)).2
    have hflat : ((nm, v) :: rest).flatMap (fun e => e.1.inner ++ le32 e.2) =
        (nm.inner ++ le32 v) ++ rest.flatMap (fun e => e.1.inner ++ le32 e.2) := by
      simp [List.flatMap_cons]
    have hblock : (nm.inner ++ le32 v).length = 164 := by
      rw [List.length_append, le32_length, wfName_inner_length hw]
    have hlen : (pre ++ ((nm, v) :: rest).flatMap (fun e => e.1.inner ++ le32 e.2)).length =
        pre.length + 164 + (rest.flatMap (fun e => e.1.inner ++ le32 e.2)).length := by
      rw [hflat, List.length_append, List.length_append, hblock]
      omega
    rw [Reader.readNameEntries, dif_pos (by rw [hlen]; omega)]
    have hslice :
        slice (pre ++ ((nm, v) :: rest).flatMap (fun e => e.1.inner ++ le32 e.2))
          pre.length 164 =
          (nm.inner ++ le32 v ++ rest.flatMap (fun e => e.1.inner ++ le32 e.2)).take 164 := by
      unfold slice
      rw [hflat, List.drop_left, List.append_assoc]
    rw [hslice, nameEntry_read_block hw hv]
    have hre : pre ++ ((nm, v) :: rest).flatMap (fun e => e.1.inner ++ le32 e.2) =
        (pre ++ (nm.inner ++ le32 v)) ++ rest.flatMap (fun e => e.1.inner ++ le32 e.2) := by
      rw [hflat]
      simp [List.append_assoc]
    have hoff : pre.length + 164 = (pre ++ (nm.inner ++ le32 v)).length := by
      rw [List.length_append, hblock]
    rw [hre, hoff,
      readNameEntries_exact rest (pre ++ (nm.inner ++ le32 v))
        (fun e he => hwf e (List.mem_cons_of_mem _ he)), List.map_cons]

/-! ## Reader-over-serialized-table lemmas -/

theorem to_binary_parts (t : RSTable) :
    to_binary t = Header.write ⟨1, 160, t.crc_table.length, t.name_table.length⟩ ++
      (t.crc_table.flatMap (fun e => le32 e.1 ++ le32 e.2) ++
        t.name_table.flatMap (fun e => e.1.inner ++ le32 e.2)) := by
  unfold to_binary
  rw [List.append_assoc]

theorem to_binary_length (t : RSTable) (hn : ∀ e ∈ t.name_table, wfName e.1) :
    (to_binary t).length =
      22 + 8 * t.crc_table.length + 164 * t.name_table.length := by
  rw [to_binary_parts, List.length_append, List.length_append, headerWrite_length,
    flatMap8_length, nameFlat_length t.name_table hn]
  omega

theorem new_to_binary (t : RSTable) (hwf : wfTable t) :
    ResTblReader.new (to_binary t) =
      .ok ⟨to_binary t, ⟨1, 160, t.crc_table.length, t.name_table.length⟩⟩ := by
  obtain ⟨hs1, hs2, hc, hn, hce, hne⟩ := hwf
  have hlen : (to_binary t).length =
      22 + 8 * t.crc_table.length + 164 * t.name_table.length :=
    to_binary_length t (fun e he => (hne e he).1)
  have hread : Header.read ((to_binary t).take headerFullSize) =
      .ok ⟨1, 160, t.crc_table.length, t.name_table.length⟩ := by
    rw [to_binary_parts, show headerFullSize = 22 from rfl, header_read_write]
    simp [Header.mk.injEq, Nat.mod_eq_of_lt hc, Nat.mod_eq_of_lt hn]
  unfold ResTblReader.new
  rw [if_neg (by rw [hlen]; simp only [headerFullSize]; omega), hread]
  show (if (to_binary t).length <
        headerFullSize + t.crc_table.length * 8 + t.name_table.length * 164 then
      Except.error (Failure.err (Err.invalidTableSize (to_binary t).length
        (headerFullSize + t.crc_table.length * 8 + t.name_table.length * 164)))
    else (.ok (Reader.mk (to_binary t) ⟨1, 160, t.crc_table.length, t.name_table.length⟩) :
      Except Failure Reader)) = _
  rw [if_neg (by rw [hlen]; simp only [headerFullSize]; omega)]

theorem parseHash_general (pre : List Nat) (hpre : pre.length = 22)
    (l : List (Nat × Nat)) (rest : List Nat) (hd : Header)
    (hce : ∀ e ∈ l, e.1 < 4294967296 ∧ e.2 < 4294967296)
    (i : Nat) (hi : i < l.length) :
    Reader.parseHashEntry
        ⟨pre ++ (l.flatMap (fun e => le32 e.1 ++ le32 e.2) ++ rest), hd⟩ i =
      l.get ⟨i, hi⟩ := by
  have hmem : l.get ⟨i, hi⟩ ∈ l := List.get_mem l i hi
  have h1 := (u32At_flat8 l rest i hi).1
  have h2 := (u32At_flat8 l rest i hi).2
  unfold Reader.parseHashEntry
  show (u32At (pre ++ (l.flatMap (fun e => le32 e.1 ++ le32 e.2) ++ rest))
      (headerFullSize + i * 8),
    u32At (pre ++ (l.flatMap (fun e => le32 e.1 ++ le32 e.2) ++ rest))
      (headerFullSize + i * 8 + 4)) = _
  rw [u32At_peel pre (l.flatMap (fun e => le32 e.1 ++ le32 e.2) ++ rest)
      (by rw [hpre]; simp only [headerFullSize]; omega),
    u32At_peel pre (l.flatMap (fun e => le32 e.1 ++ le32 e.2) ++ rest)
      (by rw [hpre]; simp only [headerFullSize]; omega)]
  rw [show headerFullSize + i * 8 - pre.length = 8 * i from by
      rw [hpre]; simp only [headerFullSize]; omega,
    show headerFullSize + i * 8 + 4 - pre.length = 8 * i + 4 from by
      rw [hpre]; simp only [headerFullSize]; omega]
  rw [h1, h2, Nat.mod_eq_of_lt (hce _ hmem).1, Nat.mod_eq_of_lt (hce _ hmem).2]

theorem parseHashEntry_to_binary (t : RSTable) (hd : Header)
    (hce : ∀ e ∈ t.crc_table, e.1 < 4294967296 ∧ e.2 < 4294967296)
    (i : Nat) (hi : i < t.crc_table.length) :
    Reader.parseHashEntry ⟨to_binary t, hd⟩ i = t.crc_table.get ⟨i, hi⟩ := by
  rw [show to_binary t = Header.write ⟨1, 160, t.crc_table.length, t.name_table.length⟩ ++
      (t.crc_table.flatMap (fun e => le32 e.1 ++ le32 e.2) ++
        t.name_table.flatMap (fun e => e.1.inner ++ le32 e.2)) from to_binary_parts t]
  exact parseHash_general _ (headerWrite_length _) _ _ _ hce i hi

theorem iterEntries_to_binary (t : RSTable) (hwf : wfTable t) :
    Reader.iterEntries ⟨to_binary t, ⟨1, 160, t.crc_table.length, t.name_table.length⟩⟩ =
      t.crc_table.map TableEntry.hash ++
        t.name_table.map (fun e => TableEntry.name ⟨e.1, e.2⟩) := by
  obtain ⟨hs1, hs2, hc, hn, hce, hne⟩ := hwf
  unfold Reader.iterEntries
  congr 1
  · show (List.range t.crc_table.length).map
        (fun i => TableEntry.hash (Reader.parseHashEntry _ i)) = _
    apply List.ext_get (by simp)
    intro i h1 h2
    have hi : i < t.crc_table.length := by simpa using h2
    rw [List.get_map, List.get_map, List.get_range]
    rw [parseHashEntry_to_binary t _ hce i hi]
  · show (Reader.readNameEntries (to_binary t) _).map TableEntry.name = _
    have hoffset : Reader.nameTableOffset
        ⟨to_binary t, ⟨1, 160, t.crc_table.length, t.name_table.length⟩⟩ =
        (Header.write ⟨1, 160, t.crc_table.length, t.name_table.length⟩ ++
          t.crc_table.flatMap (fun e => le32 e.1 ++ le32 e.2)).length := by
      unfold Reader.nameTableOffset
      rw [List.length_append, headerWrite_length, flatMap8_length]
      simp only [headerFullSize]
      omega
    rw [hoffset,
      show to_binary t = (Header.write ⟨1, 160, t.crc_table.length, t.name_table.length⟩ ++
        t.crc_table.flatMap (fun e => le32 e.1 ++ le32 e.2)) ++
          t.name_table.flatMap (fun e => e.1.inner ++ le32 e.2) from by
        unfold to_binary; rfl]
    rw [readNameEntries_exact t.name_table _ hne]
    rw [List.map_map]
    rfl

theorem foldl_insertEntry_hash (hs : List (Nat × Nat)) :
    ∀ t : RSTable, (hs.map TableEntry.hash).foldl RSTable.insertEntry t =
      { t with crc_table := hs.foldl (fun m e => mapInsert natCmp e.1 e.2 m) t.crc_table } := by
  induction hs with
  | nil => intro t; rfl
  | cons e tl ih =>
    intro t
    rw [List.map_cons, List.foldl_cons, List.foldl_cons]
    exact ih _

theorem foldl_insertEntry_name (ns : List (Name × Nat)) :
    ∀ t : RSTable, ((ns.map (fun e => TableEntry.name ⟨e.1, e.2⟩)).foldl RSTable.insertEntry t) =
      { t with name_table := ns.foldl (fun m e => mapInsert Name.cmp e.1 e.2 m) t.name_table } := by
  induction ns with
  | nil => intro t; rfl
  | cons e tl ih =>
    intro t
    rw [List.map_cons, List.foldl_cons, List.foldl_cons]
    exact ih _

theorem sorted_forall_append {κ ν : Type} (cmp : κ → κ → Ordering)
    (htrans : ∀ x y z, cmp x y = .lt → cmp y z = .lt → cmp x z = .lt) :
    ∀ (acc l : List (κ × ν)), sortedByKey cmp (acc ++ l) = true →
      ∀ a ∈ acc, ∀ b ∈ l, cmp a.1 b.1 = .lt
  | [], _, _ => by intro a ha; simp at ha
  | x :: acc, l, hs => by
    intro a ha b hb
    rcases List.mem_cons.mp ha with rfl | ha2
    · exact sortedByKey_head_lt htrans hs b (by simp [hb])
    · exact sorted_forall_append cmp htrans acc l (sortedByKey_tail hs) a ha2 b hb

theorem foldl_mapInsert_sorted {κ ν : Type} (cmp : κ → κ → Ordering)
    (htrans : ∀ x y z, cmp x y = .lt → cmp y z = .lt → cmp x z = .lt)
    (hswap2 : ∀ a b, cmp a b = .lt → cmp b a = .gt) :
    ∀ (l acc : List (κ × ν)), sortedByKey cmp (acc ++ l) = true →
      l.foldl (fun m e => mapInsert cmp e.1 e.2 m) acc = acc ++ l
  | [], acc, _ => by simp
  | (k, v) :: rest, acc, hs => by
    rw [List.foldl_cons]
    have hgt : ∀ e ∈ acc, cmp k e.1 = .gt := fun e he =>
      hswap2 _ _ (sorted_forall_append cmp htrans acc _ hs e he (k, v) (List.mem_cons_self _ _))
    rw [show mapInsert cmp k v acc = acc ++ [(k, v)] from mapInsert_append_of_gt acc hgt]
    have hs2 : sortedByKey cmp ((acc ++ [(k, v)]) ++ rest) = true := by
      rw [List.append_assoc]
      exact hs
    rw [foldl_mapInsert_sorted cmp htrans hswap2 rest (acc ++ [(k, v)]) hs2, List.append_assoc]
    rfl

/-- C1: for every byte buffer that is a valid, canonically sorted RESTBL
file — i.e. `to_binary` of a well-formed table `t` (strictly sorted hash and
name maps, canonical zero-padded names, u32-range values) — `from_binary`
reconstructs exactly `t`, and hence `to_binary` of the parse result is
byte-for-byte identical to the original buffer. -/
theorem c1_from_binary_to_binary_roundtrip (t : RSTable) (hwf : wfTable t) :
    from_binary (to_binary t) = .ok t ∧
      ∀ t2, from_binary (to_binary t) = .ok t2 → to_binary t2 = to_binary t := by
  have hnew := new_to_binary t hwf
  have hiter := iterEntries_to_binary t hwf
  obtain ⟨hs1, hs2, hc, hn, hce, hne⟩ := hwf
  have hmain : from_binary (to_binary t) =
      .ok (RSTable.fromParser
        ⟨to_binary t, ⟨1, 160, t.crc_table.length, t.name_table.length⟩⟩) := by
    unfold from_binary
    rw [hnew]
    rfl
  have hfp : RSTable.fromParser
      ⟨to_binary t, ⟨1, 160, t.crc_table.length, t.name_table.length⟩⟩ = t := by
    unfold RSTable.fromParser
    rw [hiter, List.foldl_append, foldl_insertEntry_hash, foldl_insertEntry_name]
    have hcrc : t.crc_table.foldl (fun m e => mapInsert natCmp e.1 e.2 m) [] =
        t.crc_table := by
      rw [foldl_mapInsert_sorted natCmp natCmp_lt_trans3 natCmp_lt_swap t.crc_table []
        (by rw [List.nil_append]; exact hs1)]
      exact List.nil_append _
    have hname : t.name_table.foldl (fun m e => mapInsert Name.cmp e.1 e.2 m) [] =
        t.name_table := by
      rw [foldl_mapInsert_sorted Name.cmp nameCmp_lt_trans3 nameCmp_lt_swap t.name_table []
        (by rw [List.nil_append]; exact hs2)]
      exact List.nil_append _
    show RSTable.mk (t.crc_table.foldl (fun m e => mapInsert natCmp e.1 e.2 m) [])
        (t.name_table.foldl (fun m e => mapInsert Name.cmp e.1 e.2 m) []) = t
    rw [hcrc, hname]
  rw [hmain, hfp]
  exact ⟨rfl, fun t2 h2 => by
    cases h2
    rfl⟩

set_option maxRecDepth 16384 in
/-- Witness for C1 at a concrete well-formed two-hash/one-name table. -/
theorem c1_witness : wfTable tableSmall ∧ from_binary (to_binary tableSmall) = .ok tableSmall :=
  ⟨by unfold wfTable wfName; decide,
    (c1_from_binary_to_binary_roundtrip tableSmall (by unfold wfTable wfName; decide)).1⟩

/-- C8: whenever the header parses successfully but the buffer is shorter
than `22 + crc_table_count*8 + name_table_count*164` bytes,
`ResTblReader::new` fails with `InvalidTableSize` carrying the actual and
expected sizes, and no reader is produced. -/
theorem c8_new_invalid_table_size (data : List Nat) (h : Header)
    (hlen : 22 ≤ data.length)
    (hread : Header.read (data.take headerFullSize) = .ok h)
    (hsize : data.length < headerFullSize + h.crcTableCount * 8 + h.nameTableCount * 164) :
    ResTblReader.new data = .error (.err (.invalidTableSize data.length
      (headerFullSize + h.crcTableCount * 8 + h.nameTableCount * 164))) := by
  unfold ResTblReader.new
  rw [if_neg (by simp only [headerFullSize]; omega), hread]
  show (if data.length < headerFullSize + h.crcTableCount * 8 + h.nameTableCount * 164 then
      Except.error (Failure.err (Err.invalidTableSize data.length
        (headerFullSize + h.crcTableCount * 8 + h.nameTableCount * 164)))
    else (.ok (Reader.mk data h) : Except Failure Reader)) = _
  rw [if_pos hsize]

/-- Witness for C8: a 22-byte buffer whose header declares one hash record
(expected size 30) is rejected with `InvalidTableSize (22, 30)`. -/
theorem c8_witness :
    ResTblReader.new bufHeaderOnly = .error (.err (.invalidTableSize 22 30)) :=
  c8_new_invalid_table_size bufHeaderOnly ⟨1, 160, 1, 0⟩ (by decide) (by decide) (by decide)

/-- C2 (counterexample): on the two-line input `"5: 1"`, `"5: 2"` the claim
predicts that the second line (whose hash 5 is already present) is inserted
as a literal name entry, leaving `crc_table = [(5, 1)]` and a nonempty name
table; the code instead overwrites the hash entry unconditionally, producing
`crc_table = [(5, 2)]` and an empty name table. -/
theorem c2_counterexample :
    fromText [[53, 58, 32, 49], [53, 58, 32, 50]] = .ok ⟨[(5, 2)], []⟩ := by
  decide

/-- C2 (amended): in `from_text`, a key that parses as a decimal u32 is
always upserted into the hash sub-table (overwriting any previous entry for
that hash, never producing a name entry); a key that does not parse as a
number is hashed, and the entry is inserted into the hash sub-table when
that computed hash is absent, while the raw key text is inserted as a
literal name entry when the computed hash is already present. -/
theorem c2_amended_fromTextLine (t : RSTable) (line key rest valueStr : List Nat)
    (value : Nat)
    (hsplit : splitSep line = some (key, rest))
    (hvs : (match splitSep rest with | some p => p.1 | none => rest) = valueStr)
    (hval : parseU32 valueStr = some value) :
    (∀ h, parseU32 key = some h →
      fromTextLine t line =
          .ok { t with crc_table := mapInsert natCmp h value t.crc_table } ∧
        mapGet natCmp h (mapInsert natCmp h value t.crc_table) = some value ∧
        ∀ q, q ≠ h →
          mapGet natCmp q (mapInsert natCmp h value t.crc_table) =
            mapGet natCmp q t.crc_table) ∧
    (parseU32 key = none →
      ∀ w, mapGet natCmp (hash_name key) t.crc_table = some w →
        fromTextLine t line =
            .ok { t with
              name_table := mapInsert Name.cmp (Name.fromStr key) value t.name_table } ∧
          mapGet Name.cmp (Name.fromStr key)
            (mapInsert Name.cmp (Name.fromStr key) value t.name_table) = some value) ∧
    (parseU32 key = none →
      mapGet natCmp (hash_name key) t.crc_table = none →
        fromTextLine t line =
            .ok { t with
              crc_table := mapInsert natCmp (hash_name key) value t.crc_table } ∧
          mapGet natCmp (hash_name key)
            (mapInsert natCmp (hash_name key) value t.crc_table) = some value) := by
  have hstep : fromTextLine t line =
      match parseU32 key with
      | some hash => .ok { t with crc_table := mapInsert natCmp hash value t.crc_table }
      | none =>
        match mapGet natCmp (hash_name key) t.crc_table with
        | some _ =>
          .ok { t with
            name_table := mapInsert Name.cmp (Name.fromStr key) value t.name_table }
        | none =>
          .ok { t with crc_table := mapInsert natCmp (hash_name key) value t.crc_table } := by
    unfold fromTextLine
    rw [hsplit]
    show (match parseU32 (match splitSep rest with | some p => p.1 | none => rest) with
      | none => (Except.error Err.yamlInvalidNumber : Except Err RSTable)
      | some value =>
        match parseU32 key with
        | some hash =>
          Except.ok { t with crc_table := mapInsert natCmp hash value t.crc_table }
        | none =>
          match mapGet natCmp (hash_name key) t.crc_table with
          | some _ =>
            Except.ok { t with
              name_table := mapInsert Name.cmp (Name.fromStr key) value t.name_table }
          | none =>
            Except.ok { t with
              crc_table := mapInsert natCmp (hash_name key) value t.crc_table }) = _
    rw [hvs, hval]
  refine ⟨?_, ?_, ?_⟩
  · intro h hh
    rw [hstep, hh]
    refine ⟨rfl, mapGet_mapInsert_self (natCmp_refl h) _, ?_⟩
    intro q hq
    apply mapGet_mapInsert_of_ne (natCmp_refl h)
    intro x hqx hhx
    exact hq ((natCmp_eq_iff q x).mp hqx ▸ ((natCmp_eq_iff h x).mp hhx).symm)
  · intro hk w hw
    rw [hstep, hk, hw]
    exact ⟨rfl, mapGet_mapInsert_self (Name.cmp_refl _) _⟩
  · intro hk hq
    rw [hstep, hk, hq]
    exact ⟨rfl, mapGet_mapInsert_self (natCmp_refl _) _⟩

/-- Witness for C2's amended statement on the line `"A: 1"` over the empty
table (non-numeric key, vacant hash). -/
theorem c2_amended_witness :
    fromTextLine ⟨[], []⟩ [65, 58, 32, 49] =
        .ok ⟨[(hash_name [65], 1)], []⟩ ∧
      mapGet natCmp (hash_name [65]) [(hash_name [65], 1)] = some 1 :=
  have h := ((c2_amended_fromTextLine ⟨[], []⟩ [65, 58, 32, 49] [65] [49] [49] 1
    (by decide) (by decide) (by decide)).2.2) (by decide) (by decide)
  ⟨h.1, h.2⟩

theorem set_str_eq (t : RSTable) (s : List Nat) (v : Nat) :
    t.set (.strIdx s) v =
      match mapGet Name.cmp (Name.fromStr s) t.name_table with
      | some old =>
        ({ t with name_table := mapInsert Name.cmp (Name.fromStr s) v t.name_table },
          some old)
      | none =>
        ({ t with crc_table := mapInsert natCmp (hash_name s) v t.crc_table },
          mapGet natCmp (hash_name s) t.crc_table) := rfl

theorem set_preserves_sorted (t : RSTable) (k : TableIndex) (v : Nat)
    (h1 : sortedByKey natCmp t.crc_table = true)
    (h2 : sortedByKey Name.cmp t.name_table = true) :
    sortedByKey natCmp ((t.set k v).1).crc_table = true ∧
      sortedByKey Name.cmp ((t.set k v).1).name_table = true := by
  cases k with
  | hashIdx h =>
    exact ⟨mapInsert_sorted (fun a b => (natCmp_gt_iff a b).mp) t.crc_table h1, h2⟩
  | strIdx s =>
    rw [set_str_eq]
    rcases hget : mapGet Name.cmp (Name.fromStr s) t.name_table with _ | w
    · exact ⟨mapInsert_sorted (fun a b => (natCmp_gt_iff a b).mp) t.crc_table h1, h2⟩
    · exact ⟨h1, mapInsert_sorted (fun a b => (Name.cmp_gt_iff a b).mp) t.name_table h2⟩

/-- C9: starting from any table whose two maps are strictly sorted (hash
keys numerically, name keys by logical string), every finite sequence of
`set` operations keeps both maps strictly sorted, so iteration — and
therefore the record order written by `to_binary`/`to_text`, which traverse
the maps in list order — always yields hash keys in strictly ascending
numeric order followed by names in strictly ascending string order. -/
theorem c9_set_sequence_sorted (ops : List (TableIndex × Nat)) :
    ∀ t : RSTable, sortedByKey natCmp t.crc_table = true →
      sortedByKey Name.cmp t.name_table = true →
      sortedByKey natCmp (applySets ops t).crc_table = true ∧
        sortedByKey Name.cmp (applySets ops t).name_table = true := by
  induction ops with
  | nil => intro t h1 h2; exact ⟨h1, h2⟩
  | cons op rest ih =>
    intro t h1 h2
    have hstep := set_preserves_sorted t op.1 op.2 h1 h2
    exact ih _ hstep.1 hstep.2

/-- Witness for C9: three concrete `set` operations applied to the empty
table leave both maps strictly sorted. -/
theorem c9_witness :
    sortedByKey natCmp (applySets
        [(.hashIdx 5, 1), (.strIdx [65], 2), (.hashIdx 3, 7)] ⟨[], []⟩).crc_table = true ∧
      sortedByKey Name.cmp (applySets
        [(.hashIdx 5, 1), (.strIdx [65], 2), (.hashIdx 3, 7)] ⟨[], []⟩).name_table = true :=
  c9_set_sequence_sorted [(.hashIdx 5, 1), (.strIdx [65], 2), (.hashIdx 3, 7)]
    ⟨[], []⟩ (by decide) (by decide)

/-- C6: `set` with a path key overwrites in place (same key sequence, new
value, previous value returned) when the path is already a name-map key, and
otherwise inserts under the path's CRC hash into the hash map, leaving the
name map untouched and returning any replaced hash-map value. -/
theorem c6_set_path_semantics (t : RSTable) (s : List Nat) (v : Nat)
    (hs2 : sortedByKey Name.cmp t.name_table = true) :
    (∀ v₀, mapGet Name.cmp (Name.fromStr s) t.name_table = some v₀ →
      (t.set (.strIdx s) v).2 = some v₀ ∧
        ((t.set (.strIdx s) v).1).crc_table = t.crc_table ∧
        (((t.set (.strIdx s) v).1).name_table).map Prod.fst =
          t.name_table.map Prod.fst ∧
        mapGet Name.cmp (Name.fromStr s) (((t.set (.strIdx s) v).1).name_table) =
          some v) ∧
    (mapGet Name.cmp (Name.fromStr s) t.name_table = none →
      ((t.set (.strIdx s) v).1).name_table = t.name_table ∧
        (t.set (.strIdx s) v).2 = mapGet natCmp (hash_name s) t.crc_table ∧
        mapGet natCmp (hash_name s) (((t.set (.strIdx s) v).1).crc_table) = some v ∧
        ∀ q, q ≠ hash_name s →
          mapGet natCmp q (((t.set (.strIdx s) v).1).crc_table) =
            mapGet natCmp q t.crc_table) := by
  constructor
  · intro v₀ hget
    rw [set_str_eq, hget]
    refine ⟨rfl, rfl, ?_, mapGet_mapInsert_self (Name.cmp_refl _) _⟩
    exact mapInsert_keys_of_found nameCmp_lt_trans3 t.name_table hs2 hget
  · intro hget
    rw [set_str_eq, hget]
    refine ⟨rfl, rfl, mapGet_mapInsert_self (natCmp_refl _) _, ?_⟩
    intro q hq
    apply mapGet_mapInsert_of_ne (natCmp_refl _)
    intro x hqx hhx
    exact hq ((natCmp_eq_iff q x).mp hqx ▸ ((natCmp_eq_iff (hash_name s) x).mp hhx).symm)

set_option maxRecDepth 16384 in
/-- Witness for C6 at `tableSmall` with the present path `"A"`: the value is
overwritten in place and the old value 7 is returned. -/
theorem c6_witness :
    (tableSmall.set (.strIdx [65]) 99).2 = some 7 ∧
      ((tableSmall.set (.strIdx [65]) 99).1).crc_table = tableSmall.crc_table :=
  have h := (c6_set_path_semantics tableSmall [65] 99 (by decide)).1 7 (by decide)
  ⟨h.1, h.2.1⟩

/-! ## Iterator counting lemmas (C10) -/

theorem new_ok_facts (data : List Nat) (r : Reader)
    (h : ResTblReader.new data = .ok r) :
    r.data = data ∧
      headerFullSize + r.header.crcTableCount * 8 +
        r.header.nameTableCount * 164 ≤ data.length := by
  unfold ResTblReader.new at h
  by_cases h22 : data.length < headerFullSize
  · rw [if_pos h22] at h
    exact Except.noConfusion h
  · rw [if_neg h22] at h
    rcases hread : Header.read (data.take headerFullSize) with e | hd <;> rw [hread] at h
    · exact Except.noConfusion h
    · have h2 : (if data.length <
            headerFullSize + hd.crcTableCount * 8 + hd.nameTableCount * 164 then
          (Except.error (Failure.err (Err.invalidTableSize data.length
            (headerFullSize + hd.crcTableCount * 8 + hd.nameTableCount * 164))) :
            Except Failure Reader)
        else .ok ⟨data, hd⟩) = .ok r := h
      by_cases hsz : data.length <
          headerFullSize + hd.crcTableCount * 8 + hd.nameTableCount * 164
      · rw [if_pos hsz] at h2
        exact Except.noConfusion h2
      · rw [if_neg hsz] at h2
        cases h2
        exact ⟨rfl, by dsimp only; omega⟩

theorem readNameEntries_length_le :
    ∀ (data : List Nat) (start : Nat),
      164 * (Reader.readNameEntries data start).length ≤ data.length - start
  | data, start => by
    rw [Reader.readNameEntries]
    by_cases h : start + 164 ≤ data.length
    · rw [dif_pos h]
      rcases hre : NameEntry.read (slice data start 164) with e | e
      · simp
      · have hrec := readNameEntries_length_le data (start + 164)
        simp only [List.length_cons]
        omega
    · rw [dif_neg h]
      simp
termination_by data start => data.length - start
decreasing_by omega

theorem readNameEntries_length_ge :
    ∀ (k : Nat) (data : List Nat) (start : Nat),
      (∀ i, i < k → start + 164 * i + 164 ≤ data.length ∧
        chunkOk data (start + 164 * i) = true) →
      k ≤ (Reader.readNameEntries data start).length
  | 0, _, _, _ => Nat.zero_le _
  | k + 1, data, start, hchunks => by
    have h0 : start + 164 ≤ data.length ∧ chunkOk data start = true := by
      simpa using hchunks 0 (Nat.succ_pos k)
    rw [Reader.readNameEntries, dif_pos h0.1]
    rcases hre : NameEntry.read (slice data start 164) with e | e
    · exfalso
      have := h0.2
      unfold chunkOk at this
      rw [hre] at this
      exact Bool.noConfusion this
    · simp only [List.length_cons]
      have hrest := readNameEntries_length_ge k data (start + 164) (fun i hi => by
        have := hchunks (i + 1) (by omega)
        constructor
        · have := this.1
          omega
        · have h2 := this.2
          rw [show start + 164 + 164 * i = start + 164 * (i + 1) from by omega]
          exact h2)
      omega

set_option maxRecDepth 8192 in
/-- C10 (counterexample): a buffer 164 bytes longer than the validated
expected size whose trailing record fails to decode (invalid UTF-8 first
byte `0xFF`): the reader is constructed, `len()` is 0, and `iter()` yields 0
entries — not more than `len()` as the claim states. -/
theorem c10_counterexample :
    ResTblReader.new bufTrailingJunk = .ok ⟨bufTrailingJunk, ⟨1, 160, 0, 0⟩⟩ ∧
      bufTrailingJunk.length = 22 + 0 * 8 + 0 * 164 + 164 ∧
      Reader.len ⟨bufTrailingJunk, ⟨1, 160, 0, 0⟩⟩ = 0 ∧
      Reader.iterEntries ⟨bufTrailingJunk, ⟨1, 160, 0, 0⟩⟩ = [] := by
  refine ⟨by decide, by decide, rfl, ?_⟩
  show List.map _ (List.range 0) ++
    (Reader.readNameEntries bufTrailingJunk
      (Reader.nameTableOffset ⟨bufTrailingJunk, ⟨1, 160, 0, 0⟩⟩)).map TableEntry.name = []
  rw [show Reader.nameTableOffset ⟨bufTrailingJunk, ⟨1, 160, 0, 0⟩⟩ = 22 from rfl]
  rw [Reader.readNameEntries, dif_pos (by decide)]
  rw [show NameEntry.read (slice bufTrailingJunk 22 164) = .error .utf8Error from by decide]
  rfl

/-- C10 (amended): the reader's iterator is not bounded by
`name_table_count`: it yields the declared hash entries and then keeps
decoding 164-byte records until the remaining buffer is too short or a
record fails to decode. Consequently, when the buffer extends at least 164
bytes past the validated expected size *and the record found there (and all
declared ones) decodes successfully*, `iter()` yields more entries than
`len()`; and when the buffer is less than 164 bytes past the expected size
(and the declared records decode), `iter()` yields exactly `len()`
entries. Both count comparisons require the two header counts to total
below `2^32`, since the source's `len()` computes their sum in `u32` and
wraps past that bound. -/
theorem c10_iter_not_bounded_by_header (data : List Nat) (r : Reader)
    (hnew : ResTblReader.new data = .ok r)
    (hsum : r.header.crcTableCount + r.header.nameTableCount < 4294967296) :
    (r.iterEntries =
      (List.range r.header.crcTableCount).map (fun i => .hash (r.parseHashEntry i)) ++
        (Reader.readNameEntries data r.nameTableOffset).map .name) ∧
    (headerFullSize + r.header.crcTableCount * 8 + r.header.nameTableCount * 164 + 164 ≤
        data.length →
      (∀ i, i ≤ r.header.nameTableCount →
        chunkOk data (r.nameTableOffset + 164 * i) = true) →
      r.len < r.iterEntries.length) ∧
    (data.length <
        headerFullSize + r.header.crcTableCount * 8 + r.header.nameTableCount * 164 + 164 →
      (∀ i, i < r.header.nameTableCount →
        chunkOk data (r.nameTableOffset + 164 * i) = true) →
      r.iterEntries.length = r.len) := by
  obtain ⟨hdata, hsize⟩ := new_ok_facts data r hnew
  have hoff : r.nameTableOffset = headerFullSize + r.header.crcTableCount * 8 :=
    rfl
  have hlen : r.iterEntries.length =
      r.header.crcTableCount + (Reader.readNameEntries data r.nameTableOffset).length := by
    unfold Reader.iterEntries
    rw [hdata, List.length_append, List.length_map, List.length_map, List.length_range]
  simp only [headerFullSize] at hsize hoff
  refine ⟨by unfold Reader.iterEntries; rw [hdata], ?_, ?_⟩
  · intro hroom hchunks
    simp only [headerFullSize] at hroom
    have hge := readNameEntries_length_ge (r.header.nameTableCount + 1) data
      r.nameTableOffset (fun i hi => by
        refine ⟨?_, hchunks i (by omega)⟩
        omega)
    unfold Reader.len
    omega
  · intro hroom hchunks
    simp only [headerFullSize] at hroom
    have hge := readNameEntries_length_ge r.header.nameTableCount data
      r.nameTableOffset (fun i hi => by
        refine ⟨?_, hchunks i hi⟩
        omega)
    have hle := readNameEntries_length_le data r.nameTableOffset
    unfold Reader.len
    omega

set_option maxRecDepth 8192 in
/-- Witness for C10's amended statement: an empty-table header followed by
one decodable undeclared record makes `iter()` yield more than `len()`
entries. -/
theorem c10_witness :
    Reader.len ⟨bufTrailingRecord, ⟨1, 160, 0, 0⟩⟩ <
      (Reader.iterEntries ⟨bufTrailingRecord, ⟨1, 160, 0, 0⟩⟩).length :=
  ((c10_iter_not_bounded_by_header bufTrailingRecord ⟨bufTrailingRecord, ⟨1, 160, 0, 0⟩⟩
    (by decide) (by decide)).2.1) (by decide) (fun i hi => by
      have h0 : i = 0 := Nat.le_zero.mp hi
      subst h0
      decide)

/-! ## Binary-search correctness (C5) -/

theorem sortedByKey_get_lt {κ ν : Type} (cmp : κ → κ → Ordering)
    (htrans : ∀ x y z, cmp x y = .lt → cmp y z = .lt → cmp x z = .lt) :
    ∀ (l : List (κ × ν)), sortedByKey cmp l = true →
      ∀ i j (hi : i < l.length) (hj : j < l.length), i < j →
        cmp (l.get ⟨i, hi⟩).1 (l.get ⟨j, hj⟩).1 = .lt
  | [], _, i, j, hi, hj, hij => by simp at hj
  | a :: rest, hs, 0, 0, hi, hj, hij => by omega
  | a :: rest, hs, 0, j + 1, hi, hj, hij => by
    have hmem : rest.get ⟨j, by simpa using hj⟩ ∈ rest := List.get_mem _ _ _
    exact sortedByKey_head_lt htrans hs _ hmem
  | a :: rest, hs, i + 1, 0, hi, hj, hij => by omega
  | a :: rest, hs, i + 1, j + 1, hi, hj, hij =>
    sortedByKey_get_lt cmp htrans rest (sortedByKey_tail hs) i j
      (by simpa using hi) (by simpa using hj) (by omega)

theorem findHashAux_unfold (r : Reader) (h start stop : Nat) (hlt : start < stop) :
    Reader.findHashEntryAux r h start stop =
      match compare (r.parseHashEntry ((start + stop) / 2)).1 h with
      | .lt => Reader.findHashEntryAux r h ((start + stop) / 2 + 1) stop
      | .gt => Reader.findHashEntryAux r h start ((start + stop) / 2)
      | .eq => some (r.parseHashEntry ((start + stop) / 2)) := by
  rw [Reader.findHashEntryAux, dif_pos hlt]

theorem findHashAux_eq_some (r : Reader) (h : Nat)
    (hsort : ∀ i j, i < j → j < r.header.crcTableCount →
      (r.parseHashEntry i).1 < (r.parseHashEntry j).1)
    (j : Nat) (hjc : j < r.header.crcTableCount)
    (hhit : (r.parseHashEntry j).1 = h) :
    ∀ (start stop : Nat), start ≤ j → j < stop → stop ≤ r.header.crcTableCount →
      Reader.findHashEntryAux r h start stop = some (r.parseHashEntry j)
  | start, stop, h1, h2, h3 => by
    have hlt : start < stop := by omega
    have hmid1 : (start + stop) / 2 < stop := by omega
    have hmid2 : start ≤ (start + stop) / 2 := by omega
    rw [findHashAux_unfold r h start stop hlt]
    rcases hcmp : compare (r.parseHashEntry ((start + stop) / 2)).1 h with _ | _ | _
    · have hmj : (start + stop) / 2 < j := by
        by_contra hcon
        rcases Nat.lt_or_ge j ((start + stop) / 2) with hlt2 | hge
        · have := hsort j ((start + stop) / 2) hlt2 (by omega)
          rw [hhit] at this
          have h4 := Nat.compare_eq_lt.mp hcmp
          omega
        · have hj2 : j = (start + stop) / 2 := by omega
          rw [← hj2, hhit] at hcmp
          have h4 := Nat.compare_eq_lt.mp hcmp
          omega
      exact findHashAux_eq_some r h hsort j hjc hhit _ _ (by omega) h2 h3
    · have hje : (start + stop) / 2 = j := by
        have heq := Nat.compare_eq_eq.mp hcmp
        by_contra hcon
        rcases Nat.lt_or_ge ((start + stop) / 2) j with hlt2 | hge
        · have := hsort ((start + stop) / 2) j hlt2 hjc
          rw [hhit] at this
          omega
        · have hlt3 : j < (start + stop) / 2 := by omega
          have := hsort j ((start + stop) / 2) hlt3 (by omega)
          rw [hhit] at this
          omega
      rw [hje]
    · have hmj : j < (start + stop) / 2 := by
        by_contra hcon
        rcases Nat.lt_or_ge ((start + stop) / 2) j with hlt2 | hge
        · have := hsort ((start + stop) / 2) j hlt2 hjc
          rw [hhit] at this
          have h4 := Nat.compare_eq_gt.mp hcmp
          omega
        · have hj2 : j = (start + stop) / 2 := by omega
          rw [← hj2, hhit] at hcmp
          have h4 := Nat.compare_eq_gt.mp hcmp
          omega
      exact findHashAux_eq_some r h hsort j hjc hhit _ _ h1 hmj (by omega)
termination_by start stop => stop - start
decreasing_by
  · omega
  · omega

theorem findHashAux_eq_none (r : Reader) (h : Nat) :
    ∀ (start stop : Nat),
      (∀ i, start ≤ i → i < stop → (r.parseHashEntry i).1 ≠ h) →
      Reader.findHashEntryAux r h start stop = none
  | start, stop, hmiss => by
    by_cases hlt : start < stop
    · have hmid1 : (start + stop) / 2 < stop := by omega
      have hmid2 : start ≤ (start + stop) / 2 := by omega
      rw [findHashAux_unfold r h start stop hlt]
      rcases hcmp : compare (r.parseHashEntry ((start + stop) / 2)).1 h with _ | _ | _
      · exact findHashAux_eq_none r h _ _ (fun i hi1 hi2 => hmiss i (by omega) hi2)
      · exact absurd (Nat.compare_eq_eq.mp hcmp) (hmiss _ hmid2 hmid1)
      · exact findHashAux_eq_none r h _ _ (fun i hi1 hi2 => hmiss i hi1 (by omega))
    · rw [Reader.findHashEntryAux, dif_neg hlt]
termination_by start stop => stop - start
decreasing_by
  · omega
  · omega

theorem find?_key_some {l : List (Nat × Nat)} {h : Nat} (hs : sortedByKey natCmp l = true) :
    ∀ (j : Nat) (hj : j < l.length), (l.get ⟨j, hj⟩).1 = h →
      l.find? (fun e => e.1 == h) = some (l.get ⟨j, hj⟩) := by
  induction l with
  | nil => intro j hj; simp at hj
  | cons a rest ih =>
    intro j hj hhit
    cases j with
    | zero =>
      exact List.find?_cons_of_pos _ (by simpa using hhit)
    | succ j2 =>
      have hj2 : j2 < rest.length := by simpa using hj
      have hlt : natCmp a.1 (rest.get ⟨j2, hj2⟩).1 = .lt :=
        sortedByKey_get_lt natCmp natCmp_lt_trans3 (a :: rest) hs 0 (j2 + 1)
          (by simp) hj (by omega)
      have hne : a.1 ≠ h := by
        have := Nat.compare_eq_lt.mp hlt
        have hg : (rest.get ⟨j2, hj2⟩).1 = h := hhit
        omega
      rw [List.find?_cons_of_neg _ (by simpa using hne)]
      exact ih (sortedByKey_tail hs) j2 hj2 hhit

theorem findHashEntry_to_binary (t : RSTable) (hwf : wfTable t) (h : Nat) :
    Reader.findHashEntry ⟨to_binary t, ⟨1, 160, t.crc_table.length, t.name_table.length⟩⟩ h =
      t.crc_table.find? (fun e => e.1 == h) := by
  obtain ⟨hs1, hs2, hc, hn, hce, hne⟩ := hwf
  have hcount : (Header.mk 1 160 t.crc_table.length t.name_table.length).crcTableCount =
      t.crc_table.length := rfl
  have hparse : ∀ (i : Nat) (hi : i < t.crc_table.length),
      Reader.parseHashEntry ⟨to_binary t, ⟨1, 160, t.crc_table.length, t.name_table.length⟩⟩ i =
        t.crc_table.get ⟨i, hi⟩ :=
    fun i hi => parseHashEntry_to_binary t _ hce i hi
  have hsort : ∀ i j, i < j → j < t.crc_table.length →
      (Reader.parseHashEntry
        ⟨to_binary t, ⟨1, 160, t.crc_table.length, t.name_table.length⟩⟩ i).1 <
      (Reader.parseHashEntry
        ⟨to_binary t, ⟨1, 160, t.crc_table.length, t.name_table.length⟩⟩ j).1 := by
    intro i j hij hj
    rw [hparse i (by omega), hparse j hj]
    exact Nat.compare_eq_lt.mp
      (sortedByKey_get_lt natCmp natCmp_lt_trans3 t.crc_table hs1 i j (by omega) hj hij)
  by_cases hex : ∃ (j : Nat) (hj : j < t.crc_table.length), (t.crc_table.get ⟨j, hj⟩).1 = h
  · obtain ⟨j, hj, hhit⟩ := hex
    unfold Reader.findHashEntry
    rw [findHashAux_eq_some _ h hsort j hj (by rw [hparse j hj]; exact hhit)
      0 _ (Nat.zero_le _) hj (le_refl _)]
    rw [hparse j hj, find?_key_some hs1 j hj hhit]
  · push_neg at hex
    unfold Reader.findHashEntry
    rw [findHashAux_eq_none _ h 0 _ (fun i hi1 hi2 => by
      rw [hparse i hi2]
      exact hex i hi2)]
    rw [List.find?_eq_none.mpr (fun e he => by
      obtain ⟨⟨i, hi⟩, hg⟩ := List.mem_iff_get.mp he
      simpa using hg ▸ hex i hi)]

theorem nameRead_at :
    ∀ (ns : List (Name × Nat)) (pre : List Nat) (i : Nat) (hi : i < ns.length),
      (∀ e ∈ ns, wfName e.1 ∧ e.2 < 4294967296) →
      NameEntry.read (slice (pre ++ ns.flatMap (fun e => e.1.inner ++ le32 e.2))
          (pre.length + i * 164) 164) =
        .ok ⟨(ns.get ⟨i, hi⟩).1, (ns.get ⟨i, hi⟩).2⟩
  | [], _, i, hi, _ => by simp at hi
  | (nm, v) :: rest, pre, 0, hi, hwf => by
    have hw := hwf (nm, v) (List.mem_cons_self _ _)
    have hflat : ((nm, v) :: rest).flatMap (fun e => e.1.inner ++ le32 e.2) =
        (nm.inner ++ le32 v) ++ rest.flatMap (fun e => e.1.inner ++ le32 e.2) := by
      simp [List.flatMap_cons]
    rw [show pre.length + 0 * 164 = pre.length from by omega, hflat]
    unfold slice
    rw [show pre ++ ((nm.inner ++ le32 v) ++ rest.flatMap (fun e => e.1.inner ++ le32 e.2)) =
        pre ++ (nm.inner ++ le32 v ++ rest.flatMap (fun e => e.1.inner ++ le32 e.2)) from by
      simp [List.append_assoc]]
    rw [List.drop_left]
    exact nameEntry_read_block hw.1 hw.2 _
  | (nm, v) :: rest, pre, i + 1, hi, hwf => by
    have hw := hwf (nm, v) (List.mem_cons_self _ _)
    have hblock : (nm.inner ++ le32 v).length = 164 := by
      rw [List.length_append, le32_length, wfName_inner_length hw.1]
    have hflat : pre ++ ((nm, v) :: rest).flatMap (fun e => e.1.inner ++ le32 e.2) =
        (pre ++ (nm.inner ++ le32 v)) ++ rest.flatMap (fun e => e.1.inner ++ le32 e.2) := by
      simp [List.flatMap_cons, List.append_assoc]
    have hoff : pre.length + (i + 1) * 164 = (pre ++ (nm.inner ++ le32 v)).length + i * 164 := by
      rw [List.length_append, hblock]
      omega
    rw [hflat, hoff]
    exact nameRead_at rest (pre ++ (nm.inner ++ le32 v)) i (by simpa using hi)
      (fun e he => hwf e (List.mem_cons_of_mem _ he))

theorem parseNameEntry_to_binary (t : RSTable)
    (hne : ∀ e ∈ t.name_table, wfName e.1 ∧ e.2 < 4294967296)
    (i : Nat) (hi : i < t.name_table.length) :
    Reader.parseNameEntry ⟨to_binary t, ⟨1, 160, t.crc_table.length, t.name_table.length⟩⟩ i =
      .ok ⟨(t.name_table.get ⟨i, hi⟩).1, (t.name_table.get ⟨i, hi⟩).2⟩ := by
  have hpre : (Header.write ⟨1, 160, t.crc_table.length, t.name_table.length⟩ ++
      t.crc_table.flatMap (fun e => le32 e.1 ++ le32 e.2)).length =
      headerFullSize + t.crc_table.length * 8 := by
    rw [List.length_append, headerWrite_length, flatMap8_length]
    simp only [headerFullSize]
    omega
  unfold Reader.parseNameEntry
  show NameEntry.read (slice (to_binary t)
    (Reader.nameTableOffset _ + i * 164) 164) = _
  rw [show Reader.nameTableOffset
      ⟨to_binary t, ⟨1, 160, t.crc_table.length, t.name_table.length⟩⟩ =
      headerFullSize + t.crc_table.length * 8 from rfl]
  rw [show to_binary t = (Header.write ⟨1, 160, t.crc_table.length, t.name_table.length⟩ ++
      t.crc_table.flatMap (fun e => le32 e.1 ++ le32 e.2)) ++
        t.name_table.flatMap (fun e => e.1.inner ++ le32 e.2) from by
    unfold to_binary; rfl]
  rw [← hpre]
  exact nameRead_at t.name_table _ i hi hne

theorem findNameAux_unfold (r : Reader) (s : List Nat) (start stop : Nat)
    (hlt : start < stop) :
    Reader.findNameEntryAux r s start stop =
      match r.parseNameEntry ((start + stop) / 2) with
      | .error _ => none
      | .ok entry =>
        match lexOrd entry.name.asStr s with
        | .lt => Reader.findNameEntryAux r s ((start + stop) / 2 + 1) stop
        | .gt => Reader.findNameEntryAux r s start ((start + stop) / 2)
        | .eq => some entry := by
  rw [Reader.findNameEntryAux, dif_pos hlt]

theorem findNameAux_eq_some (r : Reader) (s : List Nat) (f : Nat → NameEntry)
    (hdec : ∀ i, i < r.header.nameTableCount → r.parseNameEntry i = .ok (f i))
    (hsort : ∀ i j, i < j → j < r.header.nameTableCount →
      lexOrd (f i).name.asStr (f j).name.asStr = .lt)
    (j : Nat) (hj : j < r.header.nameTableCount)
    (hhit : lexOrd (f j).name.asStr s = .eq) :
    ∀ (start stop : Nat), start ≤ j → j < stop → stop ≤ r.header.nameTableCount →
      Reader.findNameEntryAux r s start stop = some (f j)
  | start, stop, h1, h2, h3 => by
    have hlt : start < stop := by omega
    have hmid1 : (start + stop) / 2 < stop := by omega
    have hmid2 : start ≤ (start + stop) / 2 := by omega
    have hsj : (f j).name.asStr = s := lexOrd_eq_iff _ _ |>.mp hhit
    rw [findNameAux_unfold r s start stop hlt, hdec _ (by omega)]
    show (match lexOrd (f ((start + stop) / 2)).name.asStr s with
      | .lt => Reader.findNameEntryAux r s ((start + stop) / 2 + 1) stop
      | .gt => Reader.findNameEntryAux r s start ((start + stop) / 2)
      | .eq => some (f ((start + stop) / 2))) = _
    rcases hcmp : lexOrd (f ((start + stop) / 2)).name.asStr s with _ | _ | _
    · have hmj : (start + stop) / 2 < j := by
        by_contra hcon
        rcases Nat.lt_or_ge j ((start + stop) / 2) with hlt2 | hge
        · have hso := hsort j ((start + stop) / 2) hlt2 (by omega)
          rw [hsj] at hso
          have := lexOrd_lt_trans _ _ _ hso hcmp
          rw [lexOrd_refl] at this
          exact Ordering.noConfusion this
        · have hj2 : j = (start + stop) / 2 := by omega
          rw [← hj2, hsj, lexOrd_refl] at hcmp
          exact Ordering.noConfusion hcmp
      exact findNameAux_eq_some r s f hdec hsort j hj hhit ((start + stop) / 2 + 1) stop
        (by omega) h2 h3
    · have hje : (start + stop) / 2 = j := by
        have heq : (f ((start + stop) / 2)).name.asStr = s := lexOrd_eq_iff _ _ |>.mp hcmp
        by_contra hcon
        rcases Nat.lt_or_ge ((start + stop) / 2) j with hlt2 | hge
        · have hso := hsort ((start + stop) / 2) j hlt2 hj
          rw [heq, hsj, lexOrd_refl] at hso
          exact Ordering.noConfusion hso
        · have hlt3 : j < (start + stop) / 2 := by omega
          have hso := hsort j ((start + stop) / 2) hlt3 (by omega)
          rw [heq, hsj, lexOrd_refl] at hso
          exact Ordering.noConfusion hso
      rw [hje]
    · have hmj : j < (start + stop) / 2 := by
        by_contra hcon
        rcases Nat.lt_or_ge ((start + stop) / 2) j with hlt2 | hge
        · have hso := hsort ((start + stop) / 2) j hlt2 hj
          rw [hsj] at hso
          rw [hso] at hcmp
          exact Ordering.noConfusion hcmp
        · have hj2 : j = (start + stop) / 2 := by omega
          rw [← hj2, hhit] at hcmp
          exact Ordering.noConfusion hcmp
      exact findNameAux_eq_some r s f hdec hsort j hj hhit start ((start + stop) / 2)
        h1 hmj (by omega)
termination_by start stop => stop - start
decreasing_by
  · omega
  · omega

theorem findNameAux_eq_none (r : Reader) (s : List Nat) (f : Nat → NameEntry)
    (hdec : ∀ i, i < r.header.nameTableCount → r.parseNameEntry i = .ok (f i)) :
    ∀ (start stop : Nat), stop ≤ r.header.nameTableCount →
      (∀ i, start ≤ i → i < stop → lexOrd (f i).name.asStr s ≠ .eq) →
      Reader.findNameEntryAux r s start stop = none
  | start, stop, h3, hmiss => by
    by_cases hlt : start < stop
    · have hmid1 : (start + stop) / 2 < stop := by omega
      have hmid2 : start ≤ (start + stop) / 2 := by omega
      rw [findNameAux_unfold r s start stop hlt, hdec _ (by omega)]
      show (match lexOrd (f ((start + stop) / 2)).name.asStr s with
        | .lt => Reader.findNameEntryAux r s ((start + stop) / 2 + 1) stop
        | .gt => Reader.findNameEntryAux r s start ((start + stop) / 2)
        | .eq => some (f ((start + stop) / 2))) = none
      rcases hcmp : lexOrd (f ((start + stop) / 2)).name.asStr s with _ | _ | _
      · exact findNameAux_eq_none r s f hdec ((start + stop) / 2 + 1) stop h3
          (fun i hi1 hi2 => hmiss i (by omega) hi2)
      · exact absurd hcmp (hmiss _ hmid2 hmid1)
      · exact findNameAux_eq_none r s f hdec start ((start + stop) / 2) (by omega)
          (fun i hi1 hi2 => hmiss i hi1 (by omega))
    · rw [Reader.findNameEntryAux, dif_neg hlt]
termination_by start stop => stop - start
decreasing_by
  · omega
  · omega

theorem find?_name_some {l : List (Name × Nat)} {s : List Nat}
    (hs : sortedByKey Name.cmp l = true) :
    ∀ (j : Nat) (hj : j < l.length), (l.get ⟨j, hj⟩).1.asStr = s →
      l.find? (fun e => e.1.asStr == s) = some (l.get ⟨j, hj⟩) := by
  induction l with
  | nil => intro j hj; simp at hj
  | cons a rest ih =>
    intro j hj hhit
    cases j with
    | zero =>
      exact List.find?_cons_of_pos _ (by simpa using hhit)
    | succ j2 =>
      have hj2 : j2 < rest.length := by simpa using hj
      have hlt : Name.cmp a.1 (rest.get ⟨j2, hj2⟩).1 = .lt :=
        sortedByKey_get_lt Name.cmp nameCmp_lt_trans3 (a :: rest) hs 0 (j2 + 1)
          (by simp) hj (by omega)
      have hne : ¬ (a.1.asStr == s) = true := by
        simp only [beq_iff_eq]
        intro heq
        have hg : (rest.get ⟨j2, hj2⟩).1.asStr = s := hhit
        unfold Name.cmp at hlt
        rw [heq, hg, lexOrd_refl] at hlt
        exact Ordering.noConfusion hlt
      rw [show List.find? (fun e => e.1.asStr == s) (a :: rest) =
          List.find? (fun e => e.1.asStr == s) rest from List.find?_cons_of_neg _ hne]
      exact ih (sortedByKey_tail hs) j2 hj2 hhit

theorem findNameEntry_to_binary (t : RSTable) (hwf : wfTable t) (s : List Nat) :
    Reader.findNameEntry ⟨to_binary t, ⟨1, 160, t.crc_table.length, t.name_table.length⟩⟩ s =
      (t.name_table.find? (fun e => e.1.asStr == s)).map (fun e => NameEntry.mk e.1 e.2) := by
  obtain ⟨hs1, hs2, hc, hn, hce, hne⟩ := hwf
  have hdec : ∀ i, i < t.name_table.length →
      Reader.parseNameEntry
          ⟨to_binary t, ⟨1, 160, t.crc_table.length, t.name_table.length⟩⟩ i =
        .ok ⟨(t.name_table.getD i (⟨[]⟩, 0)).1, (t.name_table.getD i (⟨[]⟩, 0)).2⟩ := by
    intro i hi
    rw [parseNameEntry_to_binary t hne i hi, List.getD_eq_get _ _ hi]
  have hsort : ∀ i j, i < j → j < t.name_table.length →
      lexOrd (NameEntry.mk (t.name_table.getD i (⟨[]⟩, 0)).1
          (t.name_table.getD i (⟨[]⟩, 0)).2).name.asStr
        (NameEntry.mk (t.name_table.getD j (⟨[]⟩, 0)).1
          (t.name_table.getD j (⟨[]⟩, 0)).2).name.asStr = .lt := by
    intro i j hij hj
    show lexOrd (t.name_table.getD i (⟨[]⟩, 0)).1.asStr
      (t.name_table.getD j (⟨[]⟩, 0)).1.asStr = .lt
    rw [List.getD_eq_get _ _ (by omega : i < t.name_table.length),
      List.getD_eq_get _ _ hj]
    exact sortedByKey_get_lt Name.cmp nameCmp_lt_trans3 t.name_table hs2 i j (by omega) hj hij
  by_cases hex : ∃ (j : Nat) (hj : j < t.name_table.length),
      (t.name_table.get ⟨j, hj⟩).1.asStr = s
  · obtain ⟨j, hj, hhit⟩ := hex
    unfold Reader.findNameEntry
    rw [findNameAux_eq_some _ s
      (fun i => ⟨(t.name_table.getD i (⟨[]⟩, 0)).1, (t.name_table.getD i (⟨[]⟩, 0)).2⟩)
      hdec hsort j hj
      (by
        show lexOrd (t.name_table.getD j (⟨[]⟩, 0)).1.asStr s = .eq
        rw [List.getD_eq_get _ _ hj]
        exact (lexOrd_eq_iff _ _).mpr hhit)
      0 _ (Nat.zero_le _) hj (le_refl _)]
    rw [find?_name_some hs2 j hj hhit]
    rw [List.getD_eq_get _ _ hj]
    rfl
  · push_neg at hex
    unfold Reader.findNameEntry
    rw [findNameAux_eq_none _ s
      (fun i => ⟨(t.name_table.getD i (⟨[]⟩, 0)).1, (t.name_table.getD i (⟨[]⟩, 0)).2⟩)
      hdec 0 _ (le_refl _)
      (fun i hi1 hi2 => by
        show lexOrd (t.name_table.getD i (⟨[]⟩, 0)).1.asStr s ≠ .eq
        rw [List.getD_eq_get _ _ hi2]
        intro hcon
        exact hex i hi2 ((lexOrd_eq_iff _ _).mp hcon))]
    rw [List.find?_eq_none.mpr (fun e he => by
      obtain ⟨⟨i, hi⟩, hg⟩ := List.mem_iff_get.mp he
      simpa using hg ▸ hex i hi)]
    rfl

theorem mapGet_natCmp_find? (k : Nat) :
    ∀ l : List (Nat × Nat),
      mapGet natCmp k l = (l.find? (fun e => e.1 == k)).map (fun e => e.2)
  | [] => rfl
  | (k1, v1) :: rest => by
    by_cases hk : k1 = k
    · subst hk
      rw [mapGet_cons_eq (natCmp_refl _), List.find?_cons_of_pos _ (by simp)]
      rfl
    · rw [mapGet_cons_ne (fun hc => hk ((natCmp_eq_iff k k1).mp hc).symm),
        List.find?_cons_of_neg _ (by simpa using hk),
        mapGet_natCmp_find? k rest]

theorem mapGet_nameCmp_find? (nm : Name) :
    ∀ l : List (Name × Nat),
      mapGet Name.cmp nm l =
        (l.find? (fun e => e.1.asStr == nm.asStr)).map (fun e => e.2)
  | [] => rfl
  | (k1, v1) :: rest => by
    by_cases hk : k1.asStr = nm.asStr
    · rw [mapGet_cons_eq ((Name.cmp_eq_iff nm k1).mpr hk.symm),
        List.find?_cons_of_pos _ (by simpa using hk)]
      rfl
    · rw [mapGet_cons_ne (fun hc => hk ((Name.cmp_eq_iff nm k1).mp hc).symm),
        List.find?_cons_of_neg _ (by simpa using hk),
        mapGet_nameCmp_find? nm rest]

theorem takeWhile_all_ne (p : Nat → Bool) :
    ∀ l : List Nat, l.all p = true → l.takeWhile p = l
  | [] => fun _ => rfl
  | b :: rest => fun h => by
    have hb : p b = true := by
      have := List.all_eq_true.mp h b (List.mem_cons_self _ _)
      exact this
    rw [List.takeWhile_cons, if_pos hb,
      takeWhile_all_ne p rest (List.all_eq_true.mpr
        (fun x hx => List.all_eq_true.mp h x (List.mem_cons_of_mem _ hx)))]

theorem takeWhile_append_zero :
    ∀ (s rest : List Nat), s.all (fun b => b != 0) = true →
      (s ++ 0 :: rest).takeWhile (fun b => b != 0) = s
  | [], rest, _ => by simp [List.takeWhile_cons]
  | b :: s2, rest, h => by
    have hb : (b != 0) = true := List.all_eq_true.mp h b (List.mem_cons_self _ _)
    rw [List.cons_append, List.takeWhile_cons, if_pos hb,
      takeWhile_append_zero s2 rest (List.all_eq_true.mpr
        (fun x hx => List.all_eq_true.mp h x (List.mem_cons_of_mem _ hx)))]

theorem fromStr_asStr (s : List Nat) (h0 : s.all (fun b => b != 0) = true)
    (hlen : s.length ≤ 159) : (Name.fromStr s).asStr = s := by
  unfold Name.fromStr Name.asStr
  rw [takeWhile_all_ne _ s h0, List.take_of_length_le (by omega)]
  show List.takeWhile (fun b => b != 0) (s ++ List.replicate (160 - s.length) 0) = s
  rw [show List.replicate (160 - s.length) 0 = 0 :: List.replicate (159 - s.length) 0 from by
    rw [show 160 - s.length = (159 - s.length) + 1 from by omega, List.replicate_succ]]
  exact takeWhile_append_zero s _ h0

/-- C5: for a reader over a canonically sorted serialized table and for the
owned table itself, `get` with a path key returns the name sub-table match
first and otherwise falls back to the hash sub-table under the path's CRC
(yielding `none` when neither contains it), while `get` with a raw u32 key
consults only the hash sub-table. The right-hand sides are expressed with
`List.find?` over the table's entries. -/
theorem c5_get_name_first_hash_fallback (t : RSTable) (r : Reader)
    (s : List Nat) (h : Nat) (hwf : wfTable t)
    (hr : ResTblReader.new (to_binary t) = .ok r)
    (h0 : s.all (fun b => b != 0) = true) (hslen : s.length ≤ 159) :
    (r.get (.strIdx s) =
        ((t.name_table.find? (fun e => e.1.asStr == s)).map (fun e => e.2)).or
          ((t.crc_table.find? (fun e => e.1 == hash_name s)).map (fun e => e.2)) ∧
      r.get (.hashIdx h) =
        (t.crc_table.find? (fun e => e.1 == h)).map (fun e => e.2)) ∧
    (t.get (.strIdx s) =
        ((t.name_table.find? (fun e => e.1.asStr == s)).map (fun e => e.2)).or
          ((t.crc_table.find? (fun e => e.1 == hash_name s)).map (fun e => e.2)) ∧
      t.get (.hashIdx h) =
        (t.crc_table.find? (fun e => e.1 == h)).map (fun e => e.2)) := by
  have hrr : r = ⟨to_binary t, ⟨1, 160, t.crc_table.length, t.name_table.length⟩⟩ := by
    rw [new_to_binary t hwf] at hr
    exact ((Except.ok.injEq _ _).mp hr).symm
  subst hrr
  refine ⟨⟨?_, ?_⟩, ?_, ?_⟩
  · show ((Reader.findNameEntry _ s).map (fun e => e.value)).or
      ((Reader.findHashEntry _ (hash_name s)).map (fun e => e.2)) = _
    rw [findNameEntry_to_binary t hwf s, findHashEntry_to_binary t hwf (hash_name s),
      Option.map_map]
    rfl
  · show (Reader.findHashEntry _ h).map (fun e => e.2) = _
    rw [findHashEntry_to_binary t hwf h]
  · show (mapGet Name.cmp (Name.fromStr s) t.name_table).or
      (mapGet natCmp (hash_name s) t.crc_table) = _
    rw [mapGet_nameCmp_find? (Name.fromStr s) t.name_table, fromStr_asStr s h0 hslen,
      mapGet_natCmp_find? (hash_name s) t.crc_table]
  · show mapGet natCmp h t.crc_table = _
    rw [mapGet_natCmp_find? h t.crc_table]

set_option maxRecDepth 32768 in
/-- Witness for C5 at `tableSmall` with path `"A"` (present in the name
table) and raw hash 5 (present in the hash table). -/
theorem c5_witness :
    Reader.get ⟨to_binary tableSmall, ⟨1, 160, 2, 1⟩⟩ (.strIdx [65]) =
        ((tableSmall.name_table.find? (fun e => e.1.asStr == [65])).map (fun e => e.2)).or
          ((tableSmall.crc_table.find? (fun e => e.1 == hash_name [65])).map
            (fun e => e.2)) ∧
      tableSmall.get (.hashIdx 5) =
        (tableSmall.crc_table.find? (fun e => e.1 == 5)).map (fun e => e.2) :=
  have hfull := c5_get_name_first_hash_fallback tableSmall
    ⟨to_binary tableSmall, ⟨1, 160, 2, 1⟩⟩ [65] 5
    (by unfold wfTable wfName; decide) (by decide) (by decide) (by decide)
  ⟨hfull.1.1, hfull.2.2⟩

end Restbl
